import Mathlib

/-!
# CUDA-Sudoku-Solver, CPU version: constraint check, BFS expansion, DFS backtracking

Shallow embedding of `src/cpu_version.cpp`.

* A `Board` is the `std::vector<int>` of the source: a list of integers.
  `board[i]` is `cell board i`, the write `board[i] = v` is `List.set`.
* A `for` loop that leaves the function with `return false` on the first hit is
  a `List.any` over the loop range.
* `DFS` is recursive in the source; the embedding carries a recursion budget
  (`fuel`, the nesting depth still allowed) and returns `none` when it is
  used up.  `DFS_post` shows that a budget above the number of empty cells is
  always enough, so 82 serves every 81-cell board.
* `main` is the driver: the input file (a sequence of bytes) is its argument,
  the outcome its result; printing and timing are left out.  The generations
  of the BFS phase are heap vectors: `mem` says which `push_back` gets its
  memory, and a run whose `push_back` gets none ends as `Outcome.badAlloc`.
  `bfsPhase` gives the generations themselves; `driver_cases` relates the two.
* `DFSLog` and `DFSTrace` are `DFS` with a record of its writes, of the board
  around each write and of the nesting depth; `DFSLog_erase` and
  `DFSTrace_erase` show that dropping the record gives `DFS` back.
* `isValidChecked`, `BFSChecked` and `DFSChecked` are the same functions with
  every access to a board checked against its size; on 81-cell boards they
  agree with the unchecked ones (`DFSChecked_ok`, `BFSChecked_ok`).
-/

namespace Sudoku

/-! ## Constants of the source -/

/-- Grid dimension, `#define N 9`. -/
def N : Nat := 9

/-- Box dimension, `#define SQRT_N 3`. -/
def SQRT_N : Nat := 3

/-- Cell count, `#define BOARD_SIZE 81`. -/
def BOARD_SIZE : Nat := 81

/-- Number of BFS rounds of the driver, `#define BFS_DEPTH 30`. -/
def BFS_DEPTH : Nat := 30

/-- The board type of the source, `using Board = std::vector<int>`. -/
abbrev Board := List Int

/-- The read `board[i]`.  On an 81-cell board every index the program uses is
in range; the default is never returned there. -/
def cell (board : Board) (i : Nat) : Int := board.getD i 0

/-! ## The constraint check -/

/-- Source function `isValid` (lines 26-50): scan the row, then the column,
then the 3x3 box of `index`, answering `false` at the first cell equal to
`value`. -/
def isValid (board : Board) (index : Nat) (value : Int) : Bool :=
  let row := index / N
  let col := index % N
  if (List.range N).any (fun i => cell board (row * N + i) == value) then false
  else if (List.range N).any (fun i => cell board (i * N + col) == value) then false
  else
    let startRow := (row / SQRT_N) * SQRT_N
    let startCol := (col / SQRT_N) * SQRT_N
    if (List.range SQRT_N).any (fun i => (List.range SQRT_N).any (fun j =>
        cell board ((startRow + i) * N + (startCol + j)) == value)) then false
    else true

/-! ## Breadth-first expansion -/

/-- The scan `for (i = 0; i < BOARD_SIZE; i++) if (board[i] == 0)` shared by
`BFS` and `DFS`: the first index holding `0`, if there is one. -/
def firstEmpty (board : Board) : Option Nat :=
  (List.range BOARD_SIZE).find? (fun i => cell board i == 0)

/-- The values of the loop `for (value = 1; value <= N; value++)`. -/
def values : List Int := (List.range' 1 N).map Int.ofNat

/-- Lines 62-68 of `BFS`: for each value in increasing order that passes the
check at cell `i`, a copy of the board with that cell set is appended. -/
def children (board : Board) (i : Nat) : List Board :=
  values.filterMap (fun v => if isValid board i v then some (board.set i v) else none)

/-- Body of the outer loop of `BFS` (lines 55-77) for one board: what is
appended to `nextBoards`. -/
def expand (board : Board) : List Board :=
  match firstEmpty board with
  | some i => children board i
  | none => [board]

/-- Source function `BFS` (lines 53-79): `nextBoards` is passed by reference
and each board of `currentBoards` appends to it in turn; the result is the
final `nextBoards`. -/
def BFS (currentBoards nextBoards : List Board) : List Board :=
  currentBoards.foldl (fun acc board => acc ++ expand board) nextBoards

/-! ## Depth-first backtracking -/

/-- The value loop of `DFS` (lines 85-92) at cell `i`, with `call` standing
for the recursive call.  The board after a failed recursive call is whatever
that call left, with cell `i` reset to `0`. -/
def tryValues (call : Board → Option (Bool × Board)) (i : Nat) :
    List Int → Board → Option (Bool × Board)
  | [], board => some (false, board)
  | v :: vs, board =>
    if isValid board i v then
      match call (board.set i v) with
      | none => none
      | some (true, b) => some (true, b)
      | some (false, b) => tryValues call i vs (b.set i 0)
    else tryValues call i vs board

/-- Source function `DFS` (lines 82-96).  The result is the returned flag
together with the board as the call leaves it; `none` means the recursion
budget `fuel` was used up. -/
def DFS : Nat → Board → Option (Bool × Board)
  | 0, _ => none
  | fuel + 1, board =>
    match firstEmpty board with
    | none => some (true, board)
    | some i => tryValues (DFS fuel) i values board

/-! ## Instrumented search: the log of cell writes -/

/-- The value loop of `DFS` as in `tryValues`, which also records every write
to the board: `(i, v)` for line 87 (`board[i] = value`) and `(i, 0)` for
line 89 (`board[i] = 0`), in program order after the writes in `log`. -/
def tryValuesLog (call : Board → Option (Bool × Board × List (Nat × Int))) (i : Nat) :
    List Int → Board → List (Nat × Int) → Option (Bool × Board × List (Nat × Int))
  | [], board, log => some (false, board, log)
  | v :: vs, board, log =>
    if isValid board i v then
      match call (board.set i v) with
      | none => none
      | some (true, b, l) => some (true, b, log ++ (i, v) :: l)
      | some (false, b, l) => tryValuesLog call i vs (b.set i 0) (log ++ (i, v) :: l ++ [(i, 0)])
    else tryValuesLog call i vs board log

/-- Source function `DFS` with the log of the writes it performs. -/
def DFSLog : Nat → Board → Option (Bool × Board × List (Nat × Int))
  | 0, _ => none
  | fuel + 1, board =>
    match firstEmpty board with
    | none => some (true, board, [])
    | some i => tryValuesLog (DFSLog fuel) i values board []

/-! ## The driver -/

/-- The generations of the BFS phase of `main` (lines 120-127): `depth`
rounds, each one running `BFS` from the current generation into a cleared
`nextBoards`.  This is the content of `currentBoards` after the rounds when
every `push_back` got its memory; `bfsPhaseMem` below is the phase with
allocation failure. -/
def bfsPhase : Nat → List Board → List Board
  | 0, currentBoards => currentBoards
  | depth + 1, currentBoards => bfsPhase depth (BFS currentBoards [])

/-- The DFS phase of `main` (lines 130-137): the boards of the final
generation in order until the first success.  `some (some b)` is
`solved = true` with the printed board `b`, `some none` is `solved = false`. -/
def dfsPhase (fuel : Nat) : List Board → Option (Option Board)
  | [] => some none
  | board :: rest =>
    match DFS fuel board with
    | none => none
    | some (true, b) => some (some b)
    | some (false, _) => dfsPhase fuel rest

/-- The search of `main` (lines 119-137) on the initial board, with memory
for every generation. -/
def search (fuel : Nat) (initialBoard : Board) : Option (Option Board) :=
  dfsPhase fuel (bfsPhase BFS_DEPTH [initialBoard])

/-- What a run of `main` reports. -/
inductive Outcome where
  /-- "Failed to open the input file.", exit status 1, nothing else runs. -/
  | setupError : Outcome
  /-- The search succeeded and this board was printed. -/
  | solved : Board → Outcome
  /-- "No solution found." -/
  | noSolution : Outcome
  /-- A `push_back` of the BFS phase (line 66 or 76) found no memory: the
  `std::bad_alloc` it throws is caught nowhere and the run is terminated
  without a report. -/
  | badAlloc : Outcome
  deriving DecidableEq, Repr

/-! ### The BFS phase with bounded memory

The generations are heap vectors.  The host is described by `mem`: with `cur`
boards held by `currentBoards` and `next` boards already in `nextBoards`,
`mem cur next` tells whether the copy of one more board and its `push_back`
get their memory.  Nothing is assumed of `mem`.  It covers the allocations
that grow with the search, those of lines 64-66 and 76; the single board and
one-element vector set up before the loop (lines 100 and 120) are not
subject to it. -/

/-- A host that holds at most `cap` boards in the two vectors together. -/
def capMem (cap : Nat) (cur next : Nat) : Bool := decide (cur + next < cap)

/-- Lines 62-68 of `BFS` with allocation: each value that passes the check
needs memory for its board; `none` is `std::bad_alloc`. -/
def childrenMem (mem : Nat → Nat → Bool) (cur : Nat) (board : Board) (i : Nat) :
    List Int → List Board → Option (List Board)
  | [], nextBoards => some nextBoards
  | v :: vs, nextBoards =>
    if isValid board i v then
      if mem cur nextBoards.length then
        childrenMem mem cur board i vs (nextBoards ++ [board.set i v])
      else none
    else childrenMem mem cur board i vs nextBoards

/-- Body of the outer loop of `BFS` (lines 55-77) with allocation. -/
def expandMem (mem : Nat → Nat → Bool) (cur : Nat) (board : Board)
    (nextBoards : List Board) : Option (List Board) :=
  match firstEmpty board with
  | some i => childrenMem mem cur board i values nextBoards
  | none => if mem cur nextBoards.length then some (nextBoards ++ [board]) else none

/-- The outer loop of `BFS` (line 54) with allocation, `cur` being the size
of the whole of `currentBoards`. -/
def BFSLoop (mem : Nat → Nat → Bool) (cur : Nat) :
    List Board → List Board → Option (List Board)
  | [], nextBoards => some nextBoards
  | board :: rest, nextBoards =>
    match expandMem mem cur board nextBoards with
    | none => none
    | some grown => BFSLoop mem cur rest grown

/-- Source function `BFS` (lines 53-79) with allocation. -/
def BFSMem (mem : Nat → Nat → Bool) (currentBoards nextBoards : List Board) :
    Option (List Board) :=
  BFSLoop mem currentBoards.length currentBoards nextBoards

/-- The BFS phase of `main` (lines 120-127) with allocation: `none` when some
`push_back` of some round finds no memory. -/
def bfsPhaseMem (mem : Nat → Nat → Bool) : Nat → List Board → Option (List Board)
  | 0, currentBoards => some currentBoards
  | depth + 1, currentBoards =>
    match BFSMem mem currentBoards [] with
    | none => none
    | some nextBoards => bfsPhaseMem mem depth nextBoards

/-- Lines 119-147 of `main` on the initial board, with `depth` BFS rounds:
the BFS phase, which may end the run with `std::bad_alloc`, then the DFS
phase and the report.  `none` means the recursion budget of `DFS` was used
up. -/
def driver (mem : Nat → Nat → Bool) (depth fuel : Nat) (initialBoard : Board) :
    Option Outcome :=
  match bfsPhaseMem mem depth [initialBoard] with
  | none => some Outcome.badAlloc
  | some generation =>
    match dfsPhase fuel generation with
    | none => none
    | some (some b) => some (Outcome.solved b)
    | some none => some Outcome.noSolution

/-- Appending the boards one `push_back` at a time, as far as memory goes. -/
def pushAll (mem : Nat → Nat → Bool) (cur : Nat) :
    List Board → List Board → Option (List Board)
  | [], nextBoards => some nextBoards
  | b :: bs, nextBoards =>
    if mem cur nextBoards.length then pushAll mem cur bs (nextBoards ++ [b]) else none

/-- Every `push_back` of the first `depth` rounds from the generation `g`
gets its memory. -/
def Granted (mem : Nat → Nat → Bool) (depth : Nat) (g : List Board) : Prop :=
  ∀ r, r < depth → ∀ n, n < (bfsPhase (r + 1) g).length → mem (bfsPhase r g).length n = true

instance (mem : Nat → Nat → Bool) (depth : Nat) (g : List Board) :
    Decidable (Granted mem depth g) := by
  unfold Granted; infer_instance

/-! ### Reading the input

The input file is a sequence of bytes, each a number in 0..255. -/

/-- Whitespace skipped by the formatted extraction `inFile >> c` (classic
locale): space and the control characters tab, line feed, vertical tab, form
feed, carriage return. -/
def isSpace (byte : Nat) : Bool := byte == 32 || (9 ≤ byte && byte ≤ 13)

/-- The extraction `inFile >> c`: skip whitespace, then take one character;
`none` when the stream ends first. -/
def extract (stream : List Nat) : Option (Nat × List Nat) :=
  match stream.dropWhile isSpace with
  | [] => none
  | c :: rest => some (c, rest)

/-- The value of the `char c` holding `byte` when it is promoted to `int` in
`c - 48` (line 109).  Whether `char` is signed is fixed by the platform: where
it is signed, as on x86, the bytes 128..255 are the values -128..-1. -/
def charValue (signedChar : Bool) (byte : Nat) : Int :=
  if signedChar && decide (128 ≤ byte) then (byte : Int) - 256 else (byte : Int)

/-- The read loop of `main` (lines 107-110),
`for (i = 0; i < BOARD_SIZE && inFile >> c; i++) initialBoard[i] = c - 48`,
with `remaining = BOARD_SIZE - i`. -/
def readLoop (signedChar : Bool) : Nat → Nat → List Nat → Board → Board
  | 0, _, _, board => board
  | remaining + 1, i, stream, board =>
    match extract stream with
    | none => board
    | some (c, rest) =>
      readLoop signedChar remaining (i + 1) rest (board.set i (charValue signedChar c - 48))

/-- Lines 100-110 of `main`: the board starts as `BOARD_SIZE` zeros
(`Board initialBoard(BOARD_SIZE)`) and the read loop fills it. -/
def readBoard (signedChar : Bool) (stream : List Nat) : Board :=
  readLoop signedChar BOARD_SIZE 0 stream (List.replicate BOARD_SIZE 0)

/-- Source function `main` (lines 98-150) on a host with memory `mem` and the
given signedness of `char`.  The input file is `none` when it cannot be
opened and `some stream` with its bytes otherwise. -/
def main (mem : Nat → Nat → Bool) (signedChar : Bool) (fuel : Nat)
    (file : Option (List Nat)) : Option Outcome :=
  match file with
  | none => some Outcome.setupError
  | some stream => driver mem BFS_DEPTH fuel (readBoard signedChar stream)

/-! ## Specification vocabulary -/

/-- Cells `i` and `j` lie in a common row, column or 3x3 box. -/
def sameUnit (i j : Nat) : Prop :=
  j / 9 = i / 9 ∨ j % 9 = i % 9 ∨ (j / 9 / 3 = i / 9 / 3 ∧ j % 9 / 3 = i % 9 / 3)

instance (i j : Nat) : Decidable (sameUnit i j) := by
  unfold sameUnit; infer_instance

/-- The placement invariant: two distinct filled cells in a common row,
column or box hold different values. -/
def PlacementInv (b : Board) : Prop :=
  ∀ i, i < 81 → ∀ j, j < 81 → i ≠ j → sameUnit i j →
    cell b i ≠ 0 → cell b j ≠ 0 → cell b i ≠ cell b j

instance (b : Board) (i : Nat) : Decidable (∀ j, j < 81 → i ≠ j → sameUnit i j →
    cell b i ≠ 0 → cell b j ≠ 0 → cell b i ≠ cell b j) :=
  Nat.decidableBallLT 81 (fun j _ => i ≠ j → sameUnit i j →
    cell b i ≠ 0 → cell b j ≠ 0 → cell b i ≠ cell b j)

instance (b : Board) : Decidable (PlacementInv b) :=
  Nat.decidableBallLT 81 (fun i _ => ∀ j, j < 81 → i ≠ j → sameUnit i j →
    cell b i ≠ 0 → cell b j ≠ 0 → cell b i ≠ cell b j)

/-- Every cell of the board is `0` (empty) or a digit `1..9`. -/
def CellsInRange (b : Board) : Prop := ∀ i, i < 81 → 0 ≤ cell b i ∧ cell b i ≤ 9

/-- No cell of the board is empty. -/
def Complete (b : Board) : Prop := ∀ i, i < 81 → cell b i ≠ 0

instance (b : Board) : Decidable (CellsInRange b) := by
  unfold CellsInRange; infer_instance

instance (b : Board) : Decidable (Complete b) := by
  unfold Complete; infer_instance

/-- Board `c` keeps every filled cell of `b`. -/
def Extends (b c : Board) : Prop := ∀ i, i < 81 → cell b i ≠ 0 → cell c i = cell b i

instance (b c : Board) : Decidable (Extends b c) := by
  unfold Extends; infer_instance

/-- Grid `s` is a valid completion of `b`: 81 cells, all in `1..9`, the row,
column and box constraints hold, and `s` agrees with `b` on the filled cells
of `b`. -/
def IsCompletion (b s : Board) : Prop :=
  s.length = 81 ∧ (∀ i, i < 81 → 1 ≤ cell s i ∧ cell s i ≤ 9) ∧ PlacementInv s ∧ Extends b s

instance (b s : Board) : Decidable (IsCompletion b s) := by
  unfold IsCompletion; infer_instance

/-- What a call of `DFS` on board `b` guarantees of its result `r`. -/
def DFSPost (b : Board) (r : Bool × Board) : Prop :=
  r.2.length = 81 ∧
  (r.1 = false → r.2 = b ∧ ¬ ∃ s, IsCompletion b s) ∧
  (r.1 = true → Complete r.2 ∧ Extends b r.2 ∧ (PlacementInv b → PlacementInv r.2) ∧
    (CellsInRange b → CellsInRange r.2))

/-- The input stream supplies 81 valid digits: the first 81 bytes that are
not whitespace exist and each is the code of one of the digits 0 to 9. -/
def SuppliesDigits (stream : List Nat) : Prop :=
  81 ≤ (stream.filter (fun c => !isSpace c)).length ∧
  ∀ c ∈ (stream.filter (fun c => !isSpace c)).take 81, 48 ≤ c ∧ c ≤ 57

instance (stream : List Nat) : Decidable (SuppliesDigits stream) := by
  unfold SuppliesDigits; infer_instance

/-- A solved grid used for the concrete checks below: row `r`, column `c`
holds `(3 * (r % 3) + r / 3 + c) % 9 + 1`. -/
def solvedGrid : Board :=
  [1, 2, 3, 4, 5, 6, 7, 8, 9,
   4, 5, 6, 7, 8, 9, 1, 2, 3,
   7, 8, 9, 1, 2, 3, 4, 5, 6,
   2, 3, 4, 5, 6, 7, 8, 9, 1,
   5, 6, 7, 8, 9, 1, 2, 3, 4,
   8, 9, 1, 2, 3, 4, 5, 6, 7,
   3, 4, 5, 6, 7, 8, 9, 1, 2,
   6, 7, 8, 9, 1, 2, 3, 4, 5,
   9, 1, 2, 3, 4, 5, 6, 7, 8]

/-- The solved grid with cells 0 and 1 emptied. -/
def puzzleTwoBlanks : Board :=
  [0, 0, 3, 4, 5, 6, 7, 8, 9,
   4, 5, 6, 7, 8, 9, 1, 2, 3,
   7, 8, 9, 1, 2, 3, 4, 5, 6,
   2, 3, 4, 5, 6, 7, 8, 9, 1,
   5, 6, 7, 8, 9, 1, 2, 3, 4,
   8, 9, 1, 2, 3, 4, 5, 6, 7,
   3, 4, 5, 6, 7, 8, 9, 1, 2,
   6, 7, 8, 9, 1, 2, 3, 4, 5,
   9, 1, 2, 3, 4, 5, 6, 7, 8]

/-- A board with no completion whose search backtracks: cell 0 admits 1 and
2, and after either choice cell 1 admits nothing (its row holds 3..9 and its
column holds 1 and 2). -/
def deadEndBoard : Board :=
  [0, 0, 3, 4, 5, 6, 7, 8, 9,
   0, 0, 0, 0, 0, 0, 0, 0, 0,
   0, 0, 0, 0, 0, 0, 0, 0, 0,
   0, 1, 0, 0, 0, 0, 0, 0, 0,
   0, 2, 0, 0, 0, 0, 0, 0, 0,
   0, 0, 0, 0, 0, 0, 0, 0, 0,
   0, 0, 0, 0, 0, 0, 0, 0, 0,
   0, 0, 0, 0, 0, 0, 0, 0, 0,
   0, 0, 0, 0, 0, 0, 0, 0, 0]

/-- A malformed board: row 0 holds the digit 3 twice (cells 1 and 2) and
cell 0 is empty. -/
def dupRowBoard : Board :=
  [0, 3, 3, 4, 5, 6, 7, 8, 9,
   4, 5, 6, 7, 8, 9, 1, 2, 3,
   7, 8, 9, 1, 2, 3, 4, 5, 6,
   2, 3, 4, 5, 6, 7, 8, 9, 1,
   5, 6, 7, 8, 9, 1, 2, 3, 4,
   8, 9, 1, 2, 3, 4, 5, 6, 7,
   3, 4, 5, 6, 7, 8, 9, 1, 2,
   6, 7, 8, 9, 1, 2, 3, 4, 5,
   9, 1, 2, 3, 4, 5, 6, 7, 8]

/-- The board the search reports for `dupRowBoard`: cell 0 filled with 1, the
two 3s of row 0 still in place. -/
def dupRowReported : Board :=
  [1, 3, 3, 4, 5, 6, 7, 8, 9,
   4, 5, 6, 7, 8, 9, 1, 2, 3,
   7, 8, 9, 1, 2, 3, 4, 5, 6,
   2, 3, 4, 5, 6, 7, 8, 9, 1,
   5, 6, 7, 8, 9, 1, 2, 3, 4,
   8, 9, 1, 2, 3, 4, 5, 6, 7,
   3, 4, 5, 6, 7, 8, 9, 1, 2,
   6, 7, 8, 9, 1, 2, 3, 4, 5,
   9, 1, 2, 3, 4, 5, 6, 7, 8]

/-- Some row of the board holds the same digit in two different filled
cells. -/
def HasRowDuplicate (b : Board) : Prop :=
  ∃ p, p < 81 ∧ ∃ q, q < 81 ∧ p ≠ q ∧ p / 9 = q / 9 ∧ cell b p ≠ 0 ∧ cell b p = cell b q

instance (b : Board) : Decidable (HasRowDuplicate b) := by
  unfold HasRowDuplicate; infer_instance

/-- An input of 80 digits, one short: the solved grid without its last cell,
the rows separated by blanks. -/
def shortInput : List Nat :=
  ("123456789 456789123 789123456 234567891 567891234 891234567 " ++
   "345678912 678912345 91234567").toList.map Char.toNat

/-- An input of 81 characters whose first is the letter x. -/
def letterInput : List Nat :=
  ("x23456789 456789123 789123456 234567891 567891234 891234567 " ++
   "345678912 678912345 912345678").toList.map Char.toNat

/-- An input of 81 bytes whose first is the byte 233 (hexadecimal E9). -/
def highByteInput : List Nat :=
  233 :: ("23456789 456789123 789123456 234567891 567891234 891234567 " ++
   "345678912 678912345 912345678").toList.map Char.toNat

/-- The board read from `highByteInput` where `char` is signed: the byte 233
is the value -23, less 48 is -71. -/
def highByteBoard : Board :=
  [-71, 2, 3, 4, 5, 6, 7, 8, 9,
   4, 5, 6, 7, 8, 9, 1, 2, 3,
   7, 8, 9, 1, 2, 3, 4, 5, 6,
   2, 3, 4, 5, 6, 7, 8, 9, 1,
   5, 6, 7, 8, 9, 1, 2, 3, 4,
   8, 9, 1, 2, 3, 4, 5, 6, 7,
   3, 4, 5, 6, 7, 8, 9, 1, 2,
   6, 7, 8, 9, 1, 2, 3, 4, 5,
   9, 1, 2, 3, 4, 5, 6, 7, 8]

/-- The board read from `letterInput`: the code of x less 48 is 72. -/
def letterBoard : Board :=
  [72, 2, 3, 4, 5, 6, 7, 8, 9,
   4, 5, 6, 7, 8, 9, 1, 2, 3,
   7, 8, 9, 1, 2, 3, 4, 5, 6,
   2, 3, 4, 5, 6, 7, 8, 9, 1,
   5, 6, 7, 8, 9, 1, 2, 3, 4,
   8, 9, 1, 2, 3, 4, 5, 6, 7,
   3, 4, 5, 6, 7, 8, 9, 1, 2,
   6, 7, 8, 9, 1, 2, 3, 4, 5,
   9, 1, 2, 3, 4, 5, 6, 7, 8]

/-- Lexicographic order of boards read in index order 0..80: `a` is below or
equal to `b` when the cells agree, or at the first index where they differ
`a` holds the smaller value. -/
def LexLe (a b : Board) : Prop :=
  (∀ j, j < 81 → cell a j = cell b j) ∨
  ∃ k, k < 81 ∧ (∀ j, j < k → cell a j = cell b j) ∧ cell a k < cell b k

instance (a b : Board) : Decidable (LexLe a b) := by
  unfold LexLe; infer_instance

/-- The solved grid with rows 0 and 1 emptied; it has more than one valid
completion. -/
def puzzleTwoRows : Board :=
  [0, 0, 0, 0, 0, 0, 0, 0, 0,
   0, 0, 0, 0, 0, 0, 0, 0, 0,
   7, 8, 9, 1, 2, 3, 4, 5, 6,
   2, 3, 4, 5, 6, 7, 8, 9, 1,
   5, 6, 7, 8, 9, 1, 2, 3, 4,
   8, 9, 1, 2, 3, 4, 5, 6, 7,
   3, 4, 5, 6, 7, 8, 9, 1, 2,
   6, 7, 8, 9, 1, 2, 3, 4, 5,
   9, 1, 2, 3, 4, 5, 6, 7, 8]

/-- The solved grid with rows 0 and 1 exchanged, another valid completion of
`puzzleTwoRows`. -/
def swappedGrid : Board :=
  [4, 5, 6, 7, 8, 9, 1, 2, 3,
   1, 2, 3, 4, 5, 6, 7, 8, 9,
   7, 8, 9, 1, 2, 3, 4, 5, 6,
   2, 3, 4, 5, 6, 7, 8, 9, 1,
   5, 6, 7, 8, 9, 1, 2, 3, 4,
   8, 9, 1, 2, 3, 4, 5, 6, 7,
   3, 4, 5, 6, 7, 8, 9, 1, 2,
   6, 7, 8, 9, 1, 2, 3, 4, 5,
   9, 1, 2, 3, 4, 5, 6, 7, 8]

/-- One write of `DFS` to the board, with the board as it is just before the
write. -/
inductive Step where
  /-- Line 87, `board[i] = value`; the recursive call of line 88 is then made
  on `before.set i v`. -/
  | assign (before : Board) (i : Nat) (v : Int) : Step
  /-- Line 89, `board[i] = 0`, after a recursive call that failed. -/
  | reset (before : Board) (i : Nat) : Step
  deriving DecidableEq, Repr

/-- The board just before the write. -/
def Step.before : Step → Board
  | Step.assign b _ _ => b
  | Step.reset b _ => b

/-- The board just after the write. -/
def Step.after : Step → Board
  | Step.assign b i v => b.set i v
  | Step.reset b i => b.set i 0

/-- The value loop of `DFS` as in `tryValues`, which also records the writes
with the board states around them (`steps`, in program order) and the deepest
nesting of recursive calls met so far (`depth`). -/
def tryValuesTrace (call : Board → Option (Bool × Board × List Step × Nat)) (i : Nat) :
    List Int → Board → List Step → Nat → Option (Bool × Board × List Step × Nat)
  | [], board, steps, depth => some (false, board, steps, depth)
  | v :: vs, board, steps, depth =>
    if isValid board i v then
      match call (board.set i v) with
      | none => none
      | some (true, b, l, d) =>
        some (true, b, steps ++ Step.assign board i v :: l, max depth (d + 1))
      | some (false, b, l, d) =>
        tryValuesTrace call i vs (b.set i 0)
          (steps ++ Step.assign board i v :: l ++ [Step.reset b i]) (max depth (d + 1))
    else tryValuesTrace call i vs board steps depth

/-- Source function `DFS` with its trace: the writes it and its recursive
calls perform, and the nesting depth of recursive calls it reaches (0 when it
makes no recursive call). -/
def DFSTrace : Nat → Board → Option (Bool × Board × List Step × Nat)
  | 0, _ => none
  | fuel + 1, board =>
    match firstEmpty board with
    | none => some (true, board, [], 0)
    | some i => tryValuesTrace (DFSTrace fuel) i values board [] 0

/-- What holds of a step of the trace of `DFS` on the board `root`: the write
is in range, an assignment fills an empty cell with a value of 1..9 that
passed the check, and the board before the write satisfies the placement
invariant if `root` does. -/
def StepOK (root : Board) : Step → Prop
  | Step.assign p i v =>
    p.length = 81 ∧ i < 81 ∧ cell p i = 0 ∧ (1 ≤ v ∧ v ≤ 9) ∧ isValid p i v = true ∧
      (PlacementInv root → PlacementInv p)
  | Step.reset p i => p.length = 81 ∧ i < 81 ∧ (PlacementInv root → PlacementInv p)

/-! ## Bounds-checked model -/

/-- What can stop the bounds-checked model. -/
inductive Fault where
  /-- An access `board[i]` with `i` outside the board. -/
  | outOfRange (i : Nat) : Fault
  /-- A call of `isValid` with an index outside 0..80. -/
  | badIndex (index : Nat) : Fault
  /-- The recursion budget is used up. -/
  | outOfFuel : Fault
  deriving DecidableEq, Repr

instance {α : Type} [DecidableEq α] : DecidableEq (Except Fault α) := fun a b =>
  match a, b with
  | Except.ok x, Except.ok y =>
    if h : x = y then isTrue (by rw [h]) else isFalse (fun e => h (Except.ok.inj e))
  | Except.error x, Except.error y =>
    if h : x = y then isTrue (by rw [h]) else isFalse (fun e => h (Except.error.inj e))
  | Except.ok _, Except.error _ => isFalse (fun e => by cases e)
  | Except.error _, Except.ok _ => isFalse (fun e => by cases e)

/-- The read `board[i]`, checked against the size of the vector. -/
def readCell (board : Board) (i : Nat) : Except Fault Int :=
  match board[i]? with
  | some x => Except.ok x
  | none => Except.error (Fault.outOfRange i)

/-- The write `board[i] = v`, checked against the size of the vector. -/
def writeCell (board : Board) (i : Nat) (v : Int) : Except Fault Board :=
  if i < board.length then Except.ok (board.set i v) else Except.error (Fault.outOfRange i)

/-- The positions `row * N + i` read by the row loop of `isValid`. -/
def rowIndices (index : Nat) : List Nat :=
  (List.range N).map (fun i => index / N * N + i)

/-- The positions `i * N + col` read by the column loop of `isValid`. -/
def colIndices (index : Nat) : List Nat :=
  (List.range N).map (fun i => i * N + index % N)

/-- The positions `(startRow + i) * N + (startCol + j)` read by the box loops
of `isValid`. -/
def boxIndices (index : Nat) : List Nat :=
  (List.range SQRT_N).flatMap (fun i => (List.range SQRT_N).map (fun j =>
    (index / N / SQRT_N * SQRT_N + i) * N + (index % N / SQRT_N * SQRT_N + j)))

/-- One scan loop of `isValid` over the given positions with checked reads:
`true` at the first cell equal to `value`. -/
def scanChecked (board : Board) (value : Int) : List Nat → Except Fault Bool
  | [] => Except.ok false
  | j :: js =>
    match readCell board j with
    | Except.error e => Except.error e
    | Except.ok x => if x == value then Except.ok true else scanChecked board value js

/-- Source function `isValid` with checked reads, and with the index it is
called with checked to be a cell index. -/
def isValidChecked (board : Board) (index : Nat) (value : Int) : Except Fault Bool :=
  if index < BOARD_SIZE then
    match scanChecked board value (rowIndices index) with
    | Except.error e => Except.error e
    | Except.ok true => Except.ok false
    | Except.ok false =>
      match scanChecked board value (colIndices index) with
      | Except.error e => Except.error e
      | Except.ok true => Except.ok false
      | Except.ok false =>
        match scanChecked board value (boxIndices index) with
        | Except.error e => Except.error e
        | Except.ok true => Except.ok false
        | Except.ok false => Except.ok true
  else Except.error (Fault.badIndex index)

/-- The scan for the first empty cell with checked reads, over the given
positions. -/
def firstEmptyChecked (board : Board) : List Nat → Except Fault (Option Nat)
  | [] => Except.ok none
  | i :: rest =>
    match readCell board i with
    | Except.error e => Except.error e
    | Except.ok x => if x == 0 then Except.ok (some i) else firstEmptyChecked board rest

/-- The value loop of `BFS` with checked accesses. -/
def childrenChecked (board : Board) (i : Nat) : List Int → Except Fault (List Board)
  | [] => Except.ok []
  | v :: vs =>
    match isValidChecked board i v with
    | Except.error e => Except.error e
    | Except.ok true =>
      match writeCell board i v with
      | Except.error e => Except.error e
      | Except.ok newBoard =>
        match childrenChecked board i vs with
        | Except.error e => Except.error e
        | Except.ok rest => Except.ok (newBoard :: rest)
    | Except.ok false => childrenChecked board i vs

/-- Body of the outer loop of `BFS` with checked accesses. -/
def expandChecked (board : Board) : Except Fault (List Board) :=
  match firstEmptyChecked board (List.range BOARD_SIZE) with
  | Except.error e => Except.error e
  | Except.ok (some i) => childrenChecked board i values
  | Except.ok none => Except.ok [board]

/-- Source function `BFS` with checked accesses. -/
def BFSChecked : List Board → List Board → Except Fault (List Board)
  | [], nextBoards => Except.ok nextBoards
  | board :: rest, nextBoards =>
    match expandChecked board with
    | Except.error e => Except.error e
    | Except.ok new => BFSChecked rest (nextBoards ++ new)

/-- The value loop of `DFS` with checked accesses. -/
def tryValuesChecked (call : Board → Except Fault (Bool × Board)) (i : Nat) :
    List Int → Board → Except Fault (Bool × Board)
  | [], board => Except.ok (false, board)
  | v :: vs, board =>
    match isValidChecked board i v with
    | Except.error e => Except.error e
    | Except.ok true =>
      match writeCell board i v with
      | Except.error e => Except.error e
      | Except.ok b1 =>
        match call b1 with
        | Except.error e => Except.error e
        | Except.ok (true, b2) => Except.ok (true, b2)
        | Except.ok (false, b2) =>
          match writeCell b2 i 0 with
          | Except.error e => Except.error e
          | Except.ok b3 => tryValuesChecked call i vs b3
    | Except.ok false => tryValuesChecked call i vs board

/-- Source function `DFS` with checked accesses. -/
def DFSChecked : Nat → Board → Except Fault (Bool × Board)
  | 0, _ => Except.error Fault.outOfFuel
  | fuel + 1, board =>
    match firstEmptyChecked board (List.range BOARD_SIZE) with
    | Except.error e => Except.error e
    | Except.ok none => Except.ok (true, board)
    | Except.ok (some i) => tryValuesChecked (DFSChecked fuel) i values board

/-- The result of the unchecked `DFS` as a result of the checked one. -/
def liftResult (r : Option (Bool × Board)) : Except Fault (Bool × Board) :=
  match r with
  | some x => Except.ok x
  | none => Except.error Fault.outOfFuel

/-! ## Basic facts about cells -/


theorem cell_set_self (b : Board) (i : Nat) (v : Int) (h : i < b.length) :
    cell (b.set i v) i = v := by
  simp [cell, List.getD_eq_getElem?_getD, h]

theorem cell_set_other (b : Board) (i j : Nat) (v : Int) (h : i ≠ j) :
    cell (b.set i v) j = cell b j := by
  simp [cell, List.getD_eq_getElem?_getD, List.getElem?_set_ne h]

theorem mem_values (v : Int) : v ∈ values ↔ 1 ≤ v ∧ v ≤ 9 := by
  simp only [values, N, List.mem_map, List.mem_range']
  constructor
  · rintro ⟨a, ⟨k, hk, rfl⟩, rfl⟩
    simp only [Int.ofNat_eq_coe]
    omega
  · rintro ⟨h1, h2⟩
    refine ⟨v.toNat, ⟨v.toNat - 1, by omega, by omega⟩, ?_⟩
    simp only [Int.ofNat_eq_coe]
    omega

/-- Characterisation of the constraint check by the cells of the three units
of `i`. -/
theorem isValid_iff (b : Board) (i : Nat) (v : Int) (hi : i < 81) :
    isValid b i v = true ↔ ∀ j, j < 81 → sameUnit i j → cell b j ≠ v := by
  have key : isValid b i v = true ↔
      (∀ k, k < 9 → cell b (i / 9 * 9 + k) ≠ v) ∧ (∀ k, k < 9 → cell b (k * 9 + i % 9) ≠ v) ∧
      (∀ x, x < 3 → ∀ y, y < 3 → cell b ((i / 9 / 3 * 3 + x) * 9 + (i % 9 / 3 * 3 + y)) ≠ v) := by
    simp [isValid, N, SQRT_N]
  rw [key]
  unfold sameUnit
  constructor
  · rintro ⟨h1, h2, h3⟩ j hj hu
    rcases hu with hu | hu | ⟨hu1, hu2⟩
    · have := h1 (j % 9) (by omega)
      have e : i / 9 * 9 + j % 9 = j := by omega
      rwa [e] at this
    · have := h2 (j / 9) (by omega)
      have e : j / 9 * 9 + i % 9 = j := by omega
      rwa [e] at this
    · have := h3 (j / 9 % 3) (by omega) (j % 9 % 3) (by omega)
      have e : (i / 9 / 3 * 3 + j / 9 % 3) * 9 + (i % 9 / 3 * 3 + j % 9 % 3) = j := by omega
      rwa [e] at this
  · intro h
    refine ⟨fun k hk => h _ (by omega) (Or.inl (by omega)),
      fun k hk => h _ (by omega) (Or.inr (Or.inl (by omega))),
      fun x hx y hy => h _ (by omega) (Or.inr (Or.inr ⟨by omega, by omega⟩))⟩

/-! ## The scan for the first empty cell -/

theorem find_range'_some (p : Nat → Bool) : ∀ (n s i : Nat),
    (List.range' s n).find? p = some i →
      s ≤ i ∧ i < s + n ∧ p i = true ∧ ∀ j, s ≤ j → j < i → p j = false := by
  intro n
  induction n with
  | zero => intro s i h; simp at h
  | succ n ih =>
    intro s i h
    rw [List.range'_succ, List.find?_cons] at h
    cases hp : p s with
    | true =>
      rw [hp] at h
      simp only [Option.some.injEq] at h
      subst h
      exact ⟨le_refl _, by omega, hp, fun j h1 h2 => by omega⟩
    | false =>
      rw [hp] at h
      obtain ⟨h1, h2, h3, h4⟩ := ih (s + 1) i h
      refine ⟨by omega, by omega, h3, fun j hj1 hj2 => ?_⟩
      by_cases e : j = s
      · rw [e]; exact hp
      · exact h4 j (by omega) hj2

theorem firstEmpty_some {b : Board} {i : Nat} (h : firstEmpty b = some i) :
    i < 81 ∧ cell b i = 0 ∧ ∀ j, j < i → cell b j ≠ 0 := by
  unfold firstEmpty BOARD_SIZE at h
  rw [List.range_eq_range'] at h
  obtain ⟨-, h2, h3, h4⟩ := find_range'_some _ _ _ _ h
  refine ⟨by omega, by simpa using h3, fun j hj => ?_⟩
  simpa using h4 j (Nat.zero_le _) hj

theorem firstEmpty_none {b : Board} (h : firstEmpty b = none) : Complete b := by
  unfold firstEmpty BOARD_SIZE at h
  rw [List.find?_eq_none] at h
  intro j hj
  simpa using h j (List.mem_range.2 hj)

theorem firstEmpty_of_complete {b : Board} (h : Complete b) : firstEmpty b = none := by
  unfold firstEmpty BOARD_SIZE
  rw [List.find?_eq_none]
  intro j hj
  simpa using h j (List.mem_range.1 hj)

/-! ## Writes to a cell -/

theorem count_zero_set : ∀ (b : Board) (i : Nat) (v : Int), i < b.length → cell b i = 0 →
    v ≠ 0 → (b.set i v).count 0 + 1 = b.count 0 := by
  intro b
  induction b with
  | nil => intro i v h; simp at h
  | cons x xs ih =>
    intro i v hi h0 hv
    cases i with
    | zero =>
      simp only [cell, List.getD_cons_zero] at h0
      subst h0
      simp [List.count_cons, hv.symm]
    | succ k =>
      have := ih k v (by simpa using hi) (by simpa [cell] using h0) hv
      simp only [List.set_cons_succ, List.count_cons]
      omega

theorem set_restore : ∀ (b : Board) (i : Nat) (v : Int), cell b i = 0 →
    (b.set i v).set i 0 = b := by
  intro b
  induction b with
  | nil => intro i v _; rfl
  | cons x xs ih =>
    intro i v h0
    cases i with
    | zero =>
      simp only [cell, List.getD_cons_zero] at h0
      simp [h0]
    | succ k =>
      have := ih k v (by simpa [cell] using h0)
      simp [this]

theorem sameUnit_symm {i j : Nat} (h : sameUnit i j) : sameUnit j i := by
  unfold sameUnit at *
  omega

theorem sameUnit_self (i : Nat) : sameUnit i i := Or.inl rfl

/-- Writing a value that passes the check keeps the placement invariant. -/
theorem PlacementInv_set {b : Board} {i : Nat} {v : Int} (hlen : b.length = 81)
    (hinv : PlacementInv b) (hi : i < 81) (hv : isValid b i v = true) :
    PlacementInv (b.set i v) := by
  rw [isValid_iff b i v hi] at hv
  intro a ha c hc hac hu hna hnc
  by_cases e1 : a = i
  · subst e1
    rw [cell_set_self b a v (by omega), cell_set_other b a c v hac]
    exact fun h => hv c hc hu h.symm
  · by_cases e2 : c = i
    · subst e2
      rw [cell_set_self b c v (by omega), cell_set_other b c a v (Ne.symm hac)]
      exact hv a ha (sameUnit_symm hu)
    · rw [cell_set_other b i a v (Ne.symm e1)] at hna ⊢
      rw [cell_set_other b i c v (Ne.symm e2)] at hnc ⊢
      exact hinv a ha c hc hac hu hna hnc

theorem CellsInRange_set {b : Board} {i : Nat} {v : Int} (hlen : b.length = 81)
    (hr : CellsInRange b) (hi : i < 81) (hv : 1 ≤ v ∧ v ≤ 9) : CellsInRange (b.set i v) := by
  intro a ha
  by_cases e : a = i
  · subst e
    rw [cell_set_self b a v (by omega)]
    omega
  · rw [cell_set_other b i a v (Ne.symm e)]
    exact hr a ha

theorem Extends_refl (b : Board) : Extends b b := fun _ _ _ => rfl

theorem Extends_of_set {b c : Board} {i : Nat} {v : Int} (h0 : cell b i = 0)
    (h : Extends (b.set i v) c) : Extends b c := by
  intro j hj hne
  have hji : i ≠ j := fun e => hne (e ▸ h0)
  have := h j hj (by rwa [cell_set_other b i j v hji])
  rwa [cell_set_other b i j v hji] at this

/-- A board that has a valid completion satisfies the placement invariant and
holds only `0..9`. -/
theorem PlacementInv_of_completion {b s : Board} (h : IsCompletion b s) : PlacementInv b := by
  obtain ⟨-, -, hinv, hext⟩ := h
  intro i hi j hj hij hu hni hnj
  rw [← hext i hi hni, ← hext j hj hnj]
  have := hext i hi hni
  have := hext j hj hnj
  exact hinv i hi j hj hij hu (by omega) (by omega)

theorem CellsInRange_of_completion {b s : Board} (h : IsCompletion b s) : CellsInRange b := by
  obtain ⟨-, hr, -, hext⟩ := h
  intro i hi
  by_cases e : cell b i = 0
  · omega
  · have := hext i hi e
    have := hr i hi
    omega

/-- The value a completion holds at an empty cell passes the check there. -/
theorem isValid_of_completion {b s : Board} {i : Nat} (h : IsCompletion b s) (hi : i < 81)
    (h0 : cell b i = 0) : isValid b i (cell s i) = true := by
  obtain ⟨-, hr, hinv, hext⟩ := h
  rw [isValid_iff b i _ hi]
  intro j hj hu heq
  have hsi := hr i hi
  have hbj : cell b j ≠ 0 := by omega
  have hij : i ≠ j := fun e => hbj (e ▸ h0)
  have hsj := hext j hj hbj
  exact hinv i hi j hj hij hu (by omega) (by omega) (by omega)

/-- A completion of the board stays one after an empty cell is set to the
value the completion holds there. -/
theorem IsCompletion_set {b s : Board} {i : Nat} (h : IsCompletion b s) (hlen : b.length = 81)
    (hi : i < 81) : IsCompletion (b.set i (cell s i)) s := by
  obtain ⟨h1, hr, hinv, hext⟩ := h
  refine ⟨h1, hr, hinv, fun j hj hne => ?_⟩
  by_cases e : j = i
  · subst e
    rw [cell_set_self b j _ (by omega)]
  · rw [cell_set_other b i j _ (Ne.symm e)] at hne ⊢
    exact hext j hj hne

theorem IsCompletion_of_set {b s : Board} {i : Nat} {v : Int} (h0 : cell b i = 0)
    (h : IsCompletion (b.set i v) s) : IsCompletion b s :=
  ⟨h.1, h.2.1, h.2.2.1, Extends_of_set h0 h.2.2.2⟩

/-! ## The backtracking search -/

theorem tryValues_post (call : Board → Option (Bool × Board)) (b : Board) (i : Nat)
    (h0 : cell b i = 0)
    (hcall : ∀ v, 1 ≤ v ∧ v ≤ 9 → isValid b i v = true →
      ∃ r, call (b.set i v) = some r ∧ DFSPost (b.set i v) r) :
    ∀ vs : List Int, (∀ v ∈ vs, 1 ≤ v ∧ v ≤ 9) →
      ∃ r, tryValues call i vs b = some r ∧
        (r.1 = false → r.2 = b ∧
          ∀ v ∈ vs, isValid b i v = true → ¬ ∃ s, IsCompletion (b.set i v) s) ∧
        (r.1 = true → ∃ v, (1 ≤ v ∧ v ≤ 9) ∧ isValid b i v = true ∧
          DFSPost (b.set i v) r) := by
  intro vs
  induction vs with
  | nil => intro _; exact ⟨(false, b), rfl, fun _ => ⟨rfl, by simp⟩, by simp⟩
  | cons v vs ih =>
    intro hvs
    have hv := hvs v (List.mem_cons_self _ _)
    obtain ⟨r, hr, hf, ht⟩ := ih (fun w hw => hvs w (List.mem_cons_of_mem _ hw))
    unfold tryValues
    by_cases hval : isValid b i v = true
    · rw [if_pos hval]
      obtain ⟨r1, hr1, hp1⟩ := hcall v hv hval
      rw [hr1]
      obtain ⟨ok, b1⟩ := r1
      cases ok with
      | true =>
        exact ⟨(true, b1), rfl, by simp, fun _ => ⟨v, hv, hval, hp1⟩⟩
      | false =>
        have hb1 := (hp1.2.1 rfl)
        simp only at hb1
        simp only [hb1.1, set_restore b i v h0]
        refine ⟨r, hr, fun hrf => ⟨(hf hrf).1, fun w hw hwv => ?_⟩, ht⟩
        rcases List.mem_cons.1 hw with e | hw'
        · subst e; exact hb1.2
        · exact (hf hrf).2 w hw' hwv
    · rw [if_neg hval]
      refine ⟨r, hr, fun hrf => ⟨(hf hrf).1, fun w hw hwv => ?_⟩, ht⟩
      rcases List.mem_cons.1 hw with e | hw'
      · subst e; exact absurd hwv hval
      · exact (hf hrf).2 w hw' hwv

/-- Totality and contract of `DFS`: with a budget above the number of empty
cells the call returns, and its result satisfies `DFSPost`. -/
theorem DFS_post : ∀ (fuel : Nat) (b : Board), b.length = 81 → b.count 0 < fuel →
    ∃ r, DFS fuel b = some r ∧ DFSPost b r := by
  intro fuel
  induction fuel with
  | zero => intro b _ h; omega
  | succ fuel ih =>
    intro b hlen hfuel
    unfold DFS
    cases hfe : firstEmpty b with
    | none =>
      exact ⟨(true, b), rfl, hlen, by simp, fun _ =>
        ⟨firstEmpty_none hfe, Extends_refl b, fun h => h, fun h => h⟩⟩
    | some i =>
      obtain ⟨hi, h0, -⟩ := firstEmpty_some hfe
      have hcall : ∀ v, 1 ≤ v ∧ v ≤ 9 → isValid b i v = true →
          ∃ r, DFS fuel (b.set i v) = some r ∧ DFSPost (b.set i v) r := by
        intro v hv _
        have := count_zero_set b i v (by omega) h0 (by omega)
        exact ih (b.set i v) (by simpa using hlen) (by omega)
      obtain ⟨r, hr, hf, ht⟩ := tryValues_post (DFS fuel) b i h0 hcall values
        (fun v hv => (mem_values v).1 hv)
      refine ⟨r, hr, ?_, ?_, ?_⟩
      · cases hok : r.1 with
        | false => rw [(hf hok).1]; exact hlen
        | true => obtain ⟨v, -, -, hp⟩ := ht hok; exact hp.1
      · intro hok
        refine ⟨(hf hok).1, ?_⟩
        rintro ⟨s, hs⟩
        have hsi := hs.2.1 i hi
        exact (hf hok).2 (cell s i) ((mem_values _).2 hsi) (isValid_of_completion hs hi h0)
          ⟨s, IsCompletion_set hs hlen hi⟩
      · intro hok
        obtain ⟨v, hv, hval, hp⟩ := ht hok
        obtain ⟨hc, he, hpi, hcr⟩ := hp.2.2 hok
        exact ⟨hc, Extends_of_set h0 he, fun h => hpi (PlacementInv_set hlen h hi hval),
          fun h => hcr (CellsInRange_set hlen h hi hv)⟩


/-! ## The expansion of a generation -/

theorem BFS_eq_flatMap : ∀ (cur next : List Board), BFS cur next = next ++ cur.flatMap expand := by
  intro cur
  induction cur with
  | nil => intro next; simp [BFS]
  | cons b bs ih =>
    intro next
    have := ih (next ++ expand b)
    simp only [BFS, List.foldl_cons, List.flatMap_cons] at this ⊢
    rw [this, List.append_assoc]

theorem firstEmpty_eq_some {b : Board} {c : Nat} (hc : c < 81) (h0 : cell b c = 0)
    (hmin : ∀ j, j < c → cell b j ≠ 0) : firstEmpty b = some c := by
  cases h : firstEmpty b with
  | none => exact absurd h0 (firstEmpty_none h c hc)
  | some i =>
    obtain ⟨-, hi0, himin⟩ := firstEmpty_some h
    rcases Nat.lt_trichotomy i c with hlt | heq | hgt
    · exact absurd hi0 (hmin i hlt)
    · rw [heq]
    · exact absurd h0 (himin c hgt)

theorem children_eq (b : Board) (i : Nat) :
    children b i = (values.filter (fun v => isValid b i v)).map (fun v => b.set i v) := by
  unfold children
  induction values with
  | nil => rfl
  | cons v vs ih =>
    by_cases h : isValid b i v = true
    · simp [List.filterMap_cons, h, ih]
    · simp [List.filterMap_cons, h, ih]

theorem mem_children {b c : Board} {i : Nat} :
    c ∈ children b i ↔ ∃ v, (1 ≤ v ∧ v ≤ 9) ∧ isValid b i v = true ∧ c = b.set i v := by
  rw [children_eq]
  simp only [List.mem_map, List.mem_filter, mem_values]
  constructor
  · rintro ⟨v, ⟨hv, hval⟩, rfl⟩; exact ⟨v, hv, hval, rfl⟩
  · rintro ⟨v, hv, hval, rfl⟩; exact ⟨v, ⟨hv, hval⟩, rfl⟩

theorem expand_of_complete {b : Board} (h : Complete b) : expand b = [b] := by
  unfold expand
  rw [firstEmpty_of_complete h]

theorem bfsPhase_of_complete {b : Board} (h : Complete b) : ∀ k, bfsPhase k [b] = [b] := by
  intro k
  induction k with
  | zero => rfl
  | succ k ih =>
    unfold bfsPhase
    rw [BFS_eq_flatMap]
    simpa [expand_of_complete h] using ih

/-- What every board of a generation grown from `b` satisfies. -/
theorem expand_keeps {b d c : Board} (hd : d.length = 81 ∧ Extends b d ∧ PlacementInv d ∧
    CellsInRange d) (hc : c ∈ expand d) :
    c.length = 81 ∧ Extends b c ∧ PlacementInv c ∧ CellsInRange c := by
  obtain ⟨hlen, hext, hinv, hr⟩ := hd
  unfold expand at hc
  cases hfe : firstEmpty d with
  | none =>
    rw [hfe] at hc
    rw [List.mem_singleton.1 hc]
    exact ⟨hlen, hext, hinv, hr⟩
  | some i =>
    rw [hfe] at hc
    obtain ⟨hi, h0, -⟩ := firstEmpty_some hfe
    obtain ⟨v, hv, hval, rfl⟩ := mem_children.1 hc
    refine ⟨by simpa using hlen, fun j hj hne => ?_, PlacementInv_set hlen hinv hi hval,
      CellsInRange_set hlen hr hi hv⟩
    have hdj := hext j hj hne
    have hji : i ≠ j := fun e => by subst e; omega
    rw [cell_set_other d i j v hji]
    exact hdj

theorem expand_completion {d s : Board} (hlen : d.length = 81) (hs : IsCompletion d s) :
    ∃ c, c ∈ expand d ∧ IsCompletion c s := by
  unfold expand
  cases hfe : firstEmpty d with
  | none => exact ⟨d, List.mem_singleton.2 rfl, hs⟩
  | some i =>
    obtain ⟨hi, h0, -⟩ := firstEmpty_some hfe
    exact ⟨d.set i (cell s i), mem_children.2 ⟨cell s i, hs.2.1 i hi,
      isValid_of_completion hs hi h0, rfl⟩, IsCompletion_set hs hlen hi⟩

theorem bfsPhase_keeps (b s : Board) : ∀ (k : Nat) (g : List Board),
    (∀ d ∈ g, d.length = 81 ∧ Extends b d ∧ PlacementInv d ∧ CellsInRange d) →
    (∃ d, d ∈ g ∧ IsCompletion d s) →
    (∀ d ∈ bfsPhase k g, d.length = 81 ∧ Extends b d ∧ PlacementInv d ∧ CellsInRange d) ∧
    (∃ d, d ∈ bfsPhase k g ∧ IsCompletion d s) := by
  intro k
  induction k with
  | zero => intro g h1 h2; exact ⟨h1, h2⟩
  | succ k ih =>
    intro g h1 h2
    unfold bfsPhase
    apply ih
    · intro c hc
      rw [BFS_eq_flatMap, List.nil_append, List.mem_flatMap] at hc
      obtain ⟨d, hd, hcd⟩ := hc
      exact expand_keeps (h1 d hd) hcd
    · obtain ⟨d, hd, hds⟩ := h2
      obtain ⟨c, hc, hcs⟩ := expand_completion (h1 d hd).1 hds
      refine ⟨c, ?_, hcs⟩
      rw [BFS_eq_flatMap, List.nil_append, List.mem_flatMap]
      exact ⟨d, hd, hc⟩

theorem Extends_trans {a b c : Board} (h1 : Extends a b) (h2 : Extends b c) : Extends a c := by
  intro j hj hne
  have hb := h1 j hj hne
  rw [← hb]
  exact h2 j hj (by rw [hb]; exact hne)

/-- The log-free search is the instrumented one with the log dropped. -/
theorem tryValuesLog_erase (call : Board → Option (Bool × Board × List (Nat × Int)))
    (i : Nat) : ∀ (vs : List Int) (b : Board) (log : List (Nat × Int)),
    (tryValuesLog call i vs b log).map (fun r => (r.1, r.2.1)) =
      tryValues (fun c => (call c).map (fun r => (r.1, r.2.1))) i vs b := by
  intro vs
  induction vs with
  | nil => intro b log; rfl
  | cons v vs ih =>
    intro b log
    unfold tryValuesLog tryValues
    by_cases hval : isValid b i v = true
    · rw [if_pos hval, if_pos hval]
      cases hc : call (b.set i v) with
      | none => rfl
      | some r =>
        obtain ⟨ok, b1, l⟩ := r
        cases ok with
        | true => rfl
        | false => simpa using ih _ _
    · rw [if_neg hval, if_neg hval]
      exact ih _ _

theorem DFSLog_erase : ∀ (fuel : Nat) (b : Board),
    (DFSLog fuel b).map (fun r => (r.1, r.2.1)) = DFS fuel b := by
  intro fuel
  induction fuel with
  | zero => intro b; rfl
  | succ fuel ih =>
    intro b
    unfold DFSLog DFS
    cases firstEmpty b with
    | none => rfl
    | some i =>
      simp only
      rw [tryValuesLog_erase]
      congr 1
      funext c
      exact ih c

theorem BFS_append (xs ys next : List Board) :
    BFS (xs ++ ys) next = BFS xs next ++ BFS ys [] := by
  simp [BFS_eq_flatMap, List.flatMap_append]

theorem board_ext {a b : Board} (ha : a.length = 81) (hb : b.length = 81)
    (h : ∀ i, i < 81 → cell a i = cell b i) : a = b := by
  apply List.ext_getElem (by omega)
  intro n h1 h2
  have := h n (by omega)
  simpa [cell, List.getD_eq_getElem?_getD, h1, h2] using this

/-- In a completion of `b`, an empty cell of `b` differs from every filled
cell of `b` in its row, column and box. -/
theorem completion_peer {b t : Board} (h : IsCompletion b t) {i j : Nat} (hi : i < 81)
    (hj : j < 81) (hij : i ≠ j) (hu : sameUnit i j) (hne : cell b j ≠ 0) :
    cell t i ≠ cell b j := by
  obtain ⟨-, hr, hinv, hext⟩ := h
  rw [← hext j hj hne]
  have h1 := hr i hi
  have h2 := hr j hj
  exact hinv i hi j hj hij hu (by omega) (by omega)

theorem puzzleTwoBlanks_unique (t : Board) (h : IsCompletion puzzleTwoBlanks t) :
    t = solvedGrid := by
  have hr0 := h.2.1 0 (by decide)
  have hr1 := h.2.1 1 (by decide)
  have a2 := completion_peer h (i := 0) (j := 2) (by decide) (by decide) (by decide)
    (by decide) (by decide)
  have a3 := completion_peer h (i := 0) (j := 3) (by decide) (by decide) (by decide)
    (by decide) (by decide)
  have a4 := completion_peer h (i := 0) (j := 4) (by decide) (by decide) (by decide)
    (by decide) (by decide)
  have a5 := completion_peer h (i := 0) (j := 5) (by decide) (by decide) (by decide)
    (by decide) (by decide)
  have a6 := completion_peer h (i := 0) (j := 6) (by decide) (by decide) (by decide)
    (by decide) (by decide)
  have a7 := completion_peer h (i := 0) (j := 7) (by decide) (by decide) (by decide)
    (by decide) (by decide)
  have a8 := completion_peer h (i := 0) (j := 8) (by decide) (by decide) (by decide)
    (by decide) (by decide)
  have a9 := completion_peer h (i := 0) (j := 27) (by decide) (by decide) (by decide)
    (by decide) (by decide)
  have b2 := completion_peer h (i := 1) (j := 2) (by decide) (by decide) (by decide)
    (by decide) (by decide)
  have b3 := completion_peer h (i := 1) (j := 3) (by decide) (by decide) (by decide)
    (by decide) (by decide)
  have b4 := completion_peer h (i := 1) (j := 4) (by decide) (by decide) (by decide)
    (by decide) (by decide)
  have b5 := completion_peer h (i := 1) (j := 5) (by decide) (by decide) (by decide)
    (by decide) (by decide)
  have b6 := completion_peer h (i := 1) (j := 6) (by decide) (by decide) (by decide)
    (by decide) (by decide)
  have b7 := completion_peer h (i := 1) (j := 7) (by decide) (by decide) (by decide)
    (by decide) (by decide)
  have b8 := completion_peer h (i := 1) (j := 8) (by decide) (by decide) (by decide)
    (by decide) (by decide)
  have b9 := completion_peer h (i := 1) (j := 73) (by decide) (by decide) (by decide)
    (by decide) (by decide)
  have e2 : cell puzzleTwoBlanks 2 = 3 := rfl
  have e3 : cell puzzleTwoBlanks 3 = 4 := rfl
  have e4 : cell puzzleTwoBlanks 4 = 5 := rfl
  have e5 : cell puzzleTwoBlanks 5 = 6 := rfl
  have e6 : cell puzzleTwoBlanks 6 = 7 := rfl
  have e7 : cell puzzleTwoBlanks 7 = 8 := rfl
  have e8 : cell puzzleTwoBlanks 8 = 9 := rfl
  have e27 : cell puzzleTwoBlanks 27 = 2 := rfl
  have e73 : cell puzzleTwoBlanks 73 = 1 := rfl
  rw [e2] at a2 b2
  rw [e3] at a3 b3
  rw [e4] at a4 b4
  rw [e5] at a5 b5
  rw [e6] at a6 b6
  rw [e7] at a7 b7
  rw [e8] at a8 b8
  rw [e27] at a9
  rw [e73] at b9
  have t0 : cell t 0 = 1 := by omega
  have t1 : cell t 1 = 2 := by omega
  have key : ∀ i, i < 81 → i = 0 ∨ i = 1 ∨
      (cell puzzleTwoBlanks i ≠ 0 ∧ cell puzzleTwoBlanks i = cell solvedGrid i) := by decide
  apply board_ext h.1 (show solvedGrid.length = 81 from rfl)
  intro i hi
  rcases key i hi with e | e | ⟨e1, e2⟩
  · rw [e, t0]; rfl
  · rw [e, t1]; rfl
  · rw [h.2.2.2 i hi e1, e2]

theorem expand_extends {b d c : Board} (hd : d.length = 81 ∧ Extends b d)
    (hc : c ∈ expand d) : c.length = 81 ∧ Extends b c := by
  obtain ⟨hlen, hext⟩ := hd
  unfold expand at hc
  cases hfe : firstEmpty d with
  | none =>
    rw [hfe] at hc
    rw [List.mem_singleton.1 hc]
    exact ⟨hlen, hext⟩
  | some i =>
    rw [hfe] at hc
    obtain ⟨hi, h0, -⟩ := firstEmpty_some hfe
    obtain ⟨v, hv, hval, rfl⟩ := mem_children.1 hc
    refine ⟨by simpa using hlen, fun j hj hne => ?_⟩
    have hdj := hext j hj hne
    have hji : i ≠ j := fun e => by subst e; omega
    rw [cell_set_other d i j v hji]
    exact hdj

theorem bfsPhase_extends (b : Board) : ∀ (k : Nat) (g : List Board),
    (∀ d ∈ g, d.length = 81 ∧ Extends b d) →
    ∀ d ∈ bfsPhase k g, d.length = 81 ∧ Extends b d := by
  intro k
  induction k with
  | zero => intro g h1; exact h1
  | succ k ih =>
    intro g h1
    unfold bfsPhase
    apply ih
    intro c hc
    rw [BFS_eq_flatMap, List.nil_append, List.mem_flatMap] at hc
    obtain ⟨d, hd, hcd⟩ := hc
    exact expand_extends (h1 d hd) hcd

/-- The DFS phase returns, and a board it reports comes from a successful
`DFS` call on a board of the generation. -/
theorem dfsPhase_spec (fuel : Nat) (hfuel : 82 ≤ fuel) : ∀ g : List Board,
    (∀ d ∈ g, d.length = 81) →
    ∃ r, dfsPhase fuel g = some r ∧
      ∀ b', r = some b' → ∃ d, d ∈ g ∧ DFS fuel d = some (true, b') := by
  intro g
  induction g with
  | nil => intro _; exact ⟨none, rfl, by simp⟩
  | cons d rest ih =>
    intro h1
    have hlen := h1 d (List.mem_cons_self _ _)
    have hcount : d.count 0 < fuel := by
      have := List.count_le_length 0 d
      omega
    obtain ⟨r, hr1, -⟩ := DFS_post fuel d hlen hcount
    obtain ⟨r2, hr2, h2⟩ := ih (fun c hc => h1 c (List.mem_cons_of_mem _ hc))
    unfold dfsPhase
    rw [hr1]
    obtain ⟨ok, d2⟩ := r
    cases ok with
    | true =>
      refine ⟨some d2, rfl, fun b' hb' => ⟨d, List.mem_cons_self _ _, ?_⟩⟩
      cases hb'
      exact hr1
    | false =>
      refine ⟨r2, hr2, fun b' hb' => ?_⟩
      obtain ⟨c, hc, hc2⟩ := h2 b' hb'
      exact ⟨c, List.mem_cons_of_mem _ hc, hc2⟩

/-! ## The read loop -/

theorem cell_replicate_zero (n j : Nat) : cell (List.replicate n 0) j = 0 := by
  unfold cell
  rw [List.getD_eq_getElem?_getD, List.getElem?_replicate]
  split <;> rfl

theorem filter_dropWhile_isSpace : ∀ stream : List Nat,
    (stream.dropWhile isSpace).filter (fun c => !isSpace c) =
      stream.filter (fun c => !isSpace c) := by
  intro stream
  induction stream with
  | nil => rfl
  | cons c cs ih =>
    cases h : isSpace c with
    | true => simp [List.dropWhile_cons, List.filter_cons, h, ih]
    | false => simp [List.dropWhile_cons, h]

theorem extract_none {stream : List Nat} (h : extract stream = none) :
    stream.filter (fun c => !isSpace c) = [] := by
  unfold extract at h
  cases hd : stream.dropWhile isSpace with
  | nil => rw [← filter_dropWhile_isSpace, hd]; rfl
  | cons c rest => rw [hd] at h; cases h

theorem extract_some {stream rest : List Nat} {c : Nat} (h : extract stream = some (c, rest)) :
    stream.filter (fun c => !isSpace c) = c :: rest.filter (fun c => !isSpace c) := by
  unfold extract at h
  cases hd : stream.dropWhile isSpace with
  | nil => rw [hd] at h; cases h
  | cons c1 rest1 =>
    rw [hd] at h
    cases h
    have hc : isSpace c = false := by
      have := List.head_dropWhile_not isSpace stream (by rw [hd]; simp)
      simpa [hd] using this
    rw [← filter_dropWhile_isSpace, hd, List.filter_cons]
    simp [hc]

/-- The values the read loop stores for a stream: the codes of its characters
that are not whitespace, each less 48. -/
theorem readLoop_spec (sc : Bool) : ∀ (n i : Nat) (stream : List Nat) (board : Board),
    board.length = 81 → i + n ≤ 81 →
    (readLoop sc n i stream board).length = 81 ∧
    ∀ j, j < 81 → cell (readLoop sc n i stream board) j =
      if i ≤ j ∧ j < i + n then
        ((stream.filter (fun c => !isSpace c)).map (fun c => charValue sc c - 48)).getD
          (j - i) (cell board j)
      else cell board j := by
  intro n
  induction n with
  | zero =>
    intro i stream board hlen _
    refine ⟨hlen, fun j _ => ?_⟩
    rw [if_neg (by omega)]
    rfl
  | succ n ih =>
    intro i stream board hlen hin
    unfold readLoop
    cases he : extract stream with
    | none =>
      refine ⟨hlen, fun j _ => ?_⟩
      simp [extract_none he]
    | some cr =>
      obtain ⟨c, rest⟩ := cr
      obtain ⟨h1, h2⟩ := ih (i + 1) rest (board.set i (charValue sc c - 48))
        (by simpa using hlen) (by omega)
      refine ⟨h1, fun j hj => ?_⟩
      simp only
      rw [h2 j hj, extract_some he]
      by_cases e : j = i
      · subst e
        rw [if_neg (by omega), if_pos (by omega), cell_set_self _ _ _ (by omega)]
        simp
      · rw [cell_set_other _ _ _ _ (Ne.symm e)]
        by_cases hlt : i + 1 ≤ j ∧ j < i + 1 + n
        · rw [if_pos hlt, if_pos (by omega)]
          have e2 : j - i = (j - (i + 1)) + 1 := by omega
          rw [e2, List.map_cons, List.getD_cons_succ]
        · rw [if_neg hlt, if_neg (by omega)]

/-! ## Claims -/

/-- C1 (DFS soundness). On an 81-cell board with cells in 0..9 whose filled
cells satisfy the placement invariant, a call of `DFS` with a recursion budget
of at least 82 returns, and if it reports success the board it leaves has no
zero, satisfies the placement invariant on all 81 cells, and agrees with the
input on every cell that was filled before the call (it also still has 81
cells, all in 1..9). -/
theorem C1_DFS_soundness (fuel : Nat) (B : Board) (hlen : B.length = 81)
    (hrange : CellsInRange B) (hinv : PlacementInv B) (hfuel : 82 ≤ fuel) :
    (∃ r, DFS fuel B = some r) ∧
    ∀ B', DFS fuel B = some (true, B') →
      (∀ i, i < 81 → cell B' i ≠ 0) ∧ PlacementInv B' ∧
      (∀ i, i < 81 → cell B i ≠ 0 → cell B' i = cell B i) ∧
      B'.length = 81 ∧ ∀ i, i < 81 → 1 ≤ cell B' i ∧ cell B' i ≤ 9 := by
  have hcount : B.count 0 < fuel := by
    have := List.count_le_length 0 B
    omega
  obtain ⟨r, hr, hlen2, -, ht⟩ := DFS_post fuel B hlen hcount
  refine ⟨⟨r, hr⟩, fun B' hB' => ?_⟩
  rw [hB'] at hr
  cases Option.some.inj hr
  obtain ⟨hc, he, hpi, hcr⟩ := ht rfl
  refine ⟨hc, hpi hinv, he, hlen2, fun i hi => ?_⟩
  have h3 : 0 ≤ cell B' i ∧ cell B' i ≤ 9 := hcr hrange i hi
  have h4 : cell B' i ≠ 0 := hc i hi
  omega

set_option maxRecDepth 100000 in
/-- C1 at `puzzleTwoBlanks`: the hypotheses hold there, `DFS` succeeds with
`solvedGrid`, and the conclusion is obtained for that board. -/
theorem C1_DFS_soundness_witness :
    puzzleTwoBlanks.length = 81 ∧ CellsInRange puzzleTwoBlanks ∧
    PlacementInv puzzleTwoBlanks ∧ DFS 82 puzzleTwoBlanks = some (true, solvedGrid) ∧
    Complete solvedGrid ∧ PlacementInv solvedGrid ∧ Extends puzzleTwoBlanks solvedGrid :=
  have hinv : PlacementInv puzzleTwoBlanks := by decide
  have hdfs : DFS 82 puzzleTwoBlanks = some (true, solvedGrid) := by decide
  have h := (C1_DFS_soundness 82 puzzleTwoBlanks rfl (by decide) hinv (by decide)).2
    solvedGrid hdfs
  ⟨rfl, by decide, hinv, hdfs, h.1, h.2.1, h.2.2.1⟩

/-- C2 (DFS completeness). On an 81-cell board, with a recursion budget of at
least 82: if `DFS` reports failure then the board has no valid completion, and
whenever a valid completion exists `DFS` reports success. -/
theorem C2_DFS_completeness (fuel : Nat) (B : Board) (hlen : B.length = 81)
    (hfuel : 82 ≤ fuel) :
    ((∃ B', DFS fuel B = some (false, B')) → ¬ ∃ S, IsCompletion B S) ∧
    ((∃ S, IsCompletion B S) → ∃ B', DFS fuel B = some (true, B')) := by
  have hcount : B.count 0 < fuel := by
    have := List.count_le_length 0 B
    omega
  obtain ⟨r, hr, -, hf, -⟩ := DFS_post fuel B hlen hcount
  obtain ⟨ok, B1⟩ := r
  constructor
  · rintro ⟨B', hB'⟩
    rw [hB'] at hr
    cases Option.some.inj hr
    exact (hf rfl).2
  · intro hS
    cases ok with
    | true => exact ⟨B1, hr⟩
    | false => exact absurd hS (hf rfl).2

/-- C2 at `deadEndBoard`, on which `DFS` fails: the board has no valid
completion. -/
theorem C2_DFS_completeness_witness :
    deadEndBoard.length = 81 ∧ DFS 82 deadEndBoard = some (false, deadEndBoard) ∧
    ¬ ∃ S, IsCompletion deadEndBoard S :=
  have hdfs : DFS 82 deadEndBoard = some (false, deadEndBoard) := by decide
  ⟨rfl, hdfs, (C2_DFS_completeness 82 deadEndBoard rfl (by decide)).1 ⟨deadEndBoard, hdfs⟩⟩

/-- C3 (DFS backtrack restoration). On an 81-cell board a call of `DFS` with a
recursion budget of at least 82 returns, and if it reports failure the board
after the call is identical to the board before it. -/
theorem C3_DFS_restoration (fuel : Nat) (B : Board) (hlen : B.length = 81)
    (hfuel : 82 ≤ fuel) :
    (∃ r, DFS fuel B = some r) ∧ ∀ B', DFS fuel B = some (false, B') → B' = B := by
  have hcount : B.count 0 < fuel := by
    have := List.count_le_length 0 B
    omega
  obtain ⟨r, hr, -, hf, -⟩ := DFS_post fuel B hlen hcount
  refine ⟨⟨r, hr⟩, fun B' hB' => ?_⟩
  rw [hB'] at hr
  cases Option.some.inj hr
  exact (hf rfl).1

/-- C3 at `deadEndBoard`: the search writes cell 0 four times (the log) and
fails; the theorem gives back the input board. -/
theorem C3_DFS_restoration_witness :
    deadEndBoard.length = 81 ∧
    DFSLog 82 deadEndBoard = some (false, deadEndBoard, [(0, 1), (0, 0), (0, 2), (0, 0)]) ∧
    ∀ B', DFS 82 deadEndBoard = some (false, B') → B' = deadEndBoard :=
  ⟨rfl, by decide, (C3_DFS_restoration 82 deadEndBoard rfl (by decide)).2⟩

/-- C4 (constraint check characterisation). On an 81-cell board, for an index
`i` in 0..80 and a value `v` in 1..9, `isValid` answers true exactly when no
cell in row `i / 9`, in column `i % 9` or in the 3x3 box of cell `i` holds
`v`; in particular, when it accepts, no filled cell of those units equals
`v`. -/
theorem C4_isValid_characterisation (B : Board) (i : Nat) (v : Int) (hlen : B.length = 81)
    (hi : i < 81) (hv : 1 ≤ v ∧ v ≤ 9) :
    (isValid B i v = true ↔
      ∀ j, j < 81 →
        (j / 9 = i / 9 ∨ j % 9 = i % 9 ∨ (j / 9 / 3 = i / 9 / 3 ∧ j % 9 / 3 = i % 9 / 3)) →
        cell B j ≠ v) ∧
    (isValid B i v = true → ∀ j, j < 81 → sameUnit i j → cell B j ≠ 0 → cell B j ≠ v) := by
  have _h1 := hlen
  have _h2 := hv
  exact ⟨isValid_iff B i v hi, fun h j hj hu _ => (isValid_iff B i v hi).1 h j hj hu⟩

/-- C4 at `puzzleTwoBlanks`, cell 0, value 1: the check accepts, so no cell
of row 0, column 0 or the top-left box holds 1. -/
theorem C4_isValid_characterisation_witness :
    isValid puzzleTwoBlanks 0 1 = true ∧
    ∀ j, j < 81 → sameUnit 0 j → cell puzzleTwoBlanks j ≠ 0 → cell puzzleTwoBlanks j ≠ 1 :=
  ⟨by decide, (C4_isValid_characterisation puzzleTwoBlanks 0 1 rfl (by decide)
    (by decide)).2 (by decide)⟩

/-- C5 (BFS expansion of one board). Let `B` be an 81-cell board whose
smallest empty index is `c`. Wherever `B` stands in the input collection, what
`BFS` appends for it is the list of boards `B[c := v]` for the values `v` of
1..9 in increasing order that pass `isValid B c v`; each child has 81 cells,
holds `v` at `c` and equals `B` elsewhere; the number of children is the
number of passing values, and with no passing value nothing is appended. -/
theorem C5_BFS_expansion (B : Board) (c : Nat) (hlen : B.length = 81) (hc : c < 81)
    (h0 : cell B c = 0) (hmin : ∀ j, j < c → cell B j ≠ 0) (pre post next : List Board) :
    BFS (pre ++ B :: post) next =
      BFS pre next ++ (values.filter (fun v => isValid B c v)).map (fun v => B.set c v)
        ++ BFS post [] ∧
    BFS [B] [] = (values.filter (fun v => isValid B c v)).map (fun v => B.set c v) ∧
    values = [1, 2, 3, 4, 5, 6, 7, 8, 9] ∧
    (∀ v, (B.set c v).length = 81 ∧ cell (B.set c v) c = v ∧
      ∀ j, j ≠ c → cell (B.set c v) j = cell B j) ∧
    (BFS [B] []).length = (values.filter (fun v => isValid B c v)).length ∧
    ((∀ v, 1 ≤ v ∧ v ≤ 9 → isValid B c v = false) → BFS [B] [] = []) := by
  have hfe := firstEmpty_eq_some hc h0 hmin
  have hexp : expand B = (values.filter (fun v => isValid B c v)).map (fun v => B.set c v) := by
    unfold expand
    rw [hfe]
    exact children_eq B c
  have hone : BFS [B] [] = (values.filter (fun v => isValid B c v)).map (fun v => B.set c v) := by
    rw [BFS_eq_flatMap]
    simp [hexp]
  refine ⟨?_, hone, by decide, fun v => ⟨by simpa using hlen, cell_set_self B c v (by omega),
    fun j hj => cell_set_other B c j v (Ne.symm hj)⟩, by rw [hone, List.length_map], fun h => ?_⟩
  · have e : pre ++ B :: post = pre ++ ([B] ++ post) := rfl
    rw [e, BFS_append, BFS_append [B] post [], hone, List.append_assoc]
  · rw [hone]
    have : values.filter (fun v => isValid B c v) = [] := by
      rw [List.filter_eq_nil_iff]
      intro v hv
      rw [h v ((mem_values v).1 hv)]
      simp
    rw [this]
    rfl

/-- C5 at `deadEndBoard`, first empty cell 0: the round produces the two
children with 1 and with 2 at cell 0, in that order. -/
theorem C5_BFS_expansion_witness :
    deadEndBoard.length = 81 ∧ cell deadEndBoard 0 = 0 ∧
    BFS [deadEndBoard] [] = [deadEndBoard.set 0 1, deadEndBoard.set 0 2] :=
  ⟨rfl, rfl, ((C5_BFS_expansion deadEndBoard 0 rfl (by decide) rfl
    (fun j hj => absurd hj (Nat.not_lt_zero j)) [] [] []).2.1).trans (by decide)⟩

/-- C6 (BFS pass-through of complete boards). For an 81-cell board `B` with
no empty cell, `BFS` on `[B]` with an empty output collection yields exactly
`[B]`; and wherever `B` stands in the input collection it contributes exactly
one unchanged copy to the next generation. -/
theorem C6_BFS_pass_through (B : Board) (hlen : B.length = 81) (hcomp : Complete B)
    (pre post next : List Board) :
    BFS [B] [] = [B] ∧ BFS (pre ++ B :: post) next = BFS pre next ++ B :: BFS post [] := by
  have _h := hlen
  have hone : BFS [B] [] = [B] := by
    rw [BFS_eq_flatMap]
    simp [expand_of_complete hcomp]
  refine ⟨hone, ?_⟩
  have e : pre ++ B :: post = pre ++ ([B] ++ post) := rfl
  rw [e, BFS_append, BFS_append [B] post [], hone]
  rfl

/-- C6 at `solvedGrid`. -/
theorem C6_BFS_pass_through_witness :
    solvedGrid.length = 81 ∧ Complete solvedGrid ∧ BFS [solvedGrid] [] = [solvedGrid] :=
  ⟨rfl, by decide, (C6_BFS_pass_through solvedGrid rfl (by decide) [] [] []).1⟩

/-- C9 (end-to-end already-complete board). For a complete valid 81-cell
board `B` and every number `k` of BFS rounds, the generation after `k` rounds
from `[B]` is exactly `[B]`; `DFS` on `B` returns success with any recursion
budget of at least 1 (so already without a recursive call), leaves `B`
unchanged, and its log of cell writes is empty. The validity of `B` is not
needed for this. -/
theorem C9_complete_board (B : Board) (hlen : B.length = 81) (hcomp : Complete B)
    (hinv : PlacementInv B) (hrange : CellsInRange B) (k fuel : Nat) (hfuel : 1 ≤ fuel) :
    bfsPhase k [B] = [B] ∧ DFS fuel B = some (true, B) ∧ DFSLog fuel B = some (true, B, []) ∧
    search fuel B = some (some B) := by
  have _h1 := hlen
  have _h2 := hinv
  have _h3 := hrange
  obtain ⟨n, rfl⟩ : ∃ n, fuel = n + 1 := ⟨fuel - 1, by omega⟩
  have hdfs : DFS (n + 1) B = some (true, B) := by
    unfold DFS
    rw [firstEmpty_of_complete hcomp]
  have hlog : DFSLog (n + 1) B = some (true, B, []) := by
    unfold DFSLog
    rw [firstEmpty_of_complete hcomp]
  refine ⟨bfsPhase_of_complete hcomp k, hdfs, hlog, ?_⟩
  unfold search
  rw [bfsPhase_of_complete hcomp]
  unfold dfsPhase
  rw [hdfs]

set_option maxRecDepth 100000 in
/-- C9 at `solvedGrid`, with 30 rounds and recursion budget 1. -/
theorem C9_complete_board_witness :
    solvedGrid.length = 81 ∧ Complete solvedGrid ∧ PlacementInv solvedGrid ∧
    CellsInRange solvedGrid ∧ bfsPhase 30 [solvedGrid] = [solvedGrid] ∧
    DFSLog 1 solvedGrid = some (true, solvedGrid, []) :=
  have hinv : PlacementInv solvedGrid := by decide
  have h := C9_complete_board solvedGrid rfl (by decide) hinv (by decide) 30 1 (by decide)
  ⟨rfl, by decide, hinv, by decide, h.1, h.2.2.1⟩

/-! ## Generations: completions and empty cells -/

theorem Extends_of_mem_expand {d c s : Board} (hc : c ∈ expand d) (h : Extends c s) :
    Extends d s := by
  unfold expand at hc
  cases hfe : firstEmpty d with
  | none =>
    rw [hfe] at hc
    rw [← List.mem_singleton.1 hc]
    exact h
  | some i =>
    rw [hfe] at hc
    obtain ⟨-, h0, -⟩ := firstEmpty_some hfe
    obtain ⟨v, -, -, rfl⟩ := mem_children.1 hc
    exact Extends_of_set h0 h

theorem count_zero_eq_zero_iff {d : Board} (hlen : d.length = 81) :
    d.count 0 = 0 ↔ Complete d := by
  rw [List.count_eq_zero]
  constructor
  · intro h i hi hc
    apply h
    have hi2 : i < d.length := by omega
    have : d[i] = 0 := by
      simpa [cell, List.getD_eq_getElem?_getD, hi2] using hc
    rw [← this]
    exact List.getElem_mem hi2
  · intro h hmem
    obtain ⟨i, hi, he⟩ := List.getElem_of_mem hmem
    apply h i (by omega)
    simpa [cell, List.getD_eq_getElem?_getD, hi] using he

theorem expand_count {d c : Board} (hlen : d.length = 81) (hc : c ∈ expand d) :
    c.length = 81 ∧ c.count 0 = d.count 0 - 1 := by
  unfold expand at hc
  cases hfe : firstEmpty d with
  | none =>
    rw [hfe] at hc
    rw [List.mem_singleton.1 hc]
    have := (count_zero_eq_zero_iff hlen).2 (firstEmpty_none hfe)
    exact ⟨hlen, by omega⟩
  | some i =>
    rw [hfe] at hc
    obtain ⟨hi, h0, -⟩ := firstEmpty_some hfe
    obtain ⟨v, hv, -, rfl⟩ := mem_children.1 hc
    have := count_zero_set d i v (by omega) h0 (by omega)
    exact ⟨by simpa using hlen, by omega⟩

theorem bfsPhase_count : ∀ (k : Nat) (g : List Board) (n : Nat),
    (∀ d ∈ g, d.length = 81 ∧ d.count 0 = n) →
    ∀ d ∈ bfsPhase k g, d.length = 81 ∧ d.count 0 = n - k := by
  intro k
  induction k with
  | zero => intro g n h; simpa [bfsPhase] using h
  | succ k ih =>
    intro g n h d hd
    unfold bfsPhase at hd
    have := ih (BFS g []) (n - 1) (fun c hc => by
      rw [BFS_eq_flatMap, List.nil_append, List.mem_flatMap] at hc
      obtain ⟨e, he, hce⟩ := hc
      have h1 := expand_count (h e he).1 hce
      exact ⟨h1.1, by rw [h1.2, (h e he).2]⟩) d hd
    exact ⟨this.1, by rw [this.2]; omega⟩

theorem BFS_of_complete : ∀ g : List Board, (∀ d ∈ g, Complete d) → BFS g [] = g := by
  intro g
  induction g with
  | nil => intro _; rfl
  | cons d rest ih =>
    intro h
    have e : d :: rest = [d] ++ rest := rfl
    rw [e, BFS_append, ih (fun c hc => h c (List.mem_cons_of_mem _ hc)), BFS_eq_flatMap]
    simp [expand_of_complete (h d (List.mem_cons_self _ _))]

theorem bfsPhase_of_all_complete (g : List Board) (h : ∀ d ∈ g, Complete d) :
    ∀ k, bfsPhase k g = g := by
  intro k
  induction k with
  | zero => rfl
  | succ k ih =>
    unfold bfsPhase
    rw [BFS_of_complete g h]
    exact ih

theorem bfsPhase_add (j : Nat) : ∀ (m : Nat) (g : List Board),
    bfsPhase (m + j) g = bfsPhase j (bfsPhase m g) := by
  intro m
  induction m with
  | zero => intro g; simp [bfsPhase]
  | succ m ih =>
    intro g
    have e : m + 1 + j = (m + j) + 1 := by omega
    rw [e]
    simp only [bfsPhase]
    exact ih _

theorem filter_eq_singleton {α : Type} (p : α → Bool) (v : α) : ∀ l : List α, l.Nodup →
    v ∈ l → p v = true → (∀ w ∈ l, p w = true → w = v) → l.filter p = [v] := by
  intro l
  induction l with
  | nil => intro _ h; simp at h
  | cons x xs ih =>
    intro hnd hmem hpv huniq
    rw [List.nodup_cons] at hnd
    by_cases hx : x = v
    · subst hx
      have : xs.filter p = [] := by
        rw [List.filter_eq_nil_iff]
        intro w hw hpw
        have := huniq w (List.mem_cons_of_mem _ hw) hpw
        subst this
        exact hnd.1 hw
      simp [List.filter_cons, hpv, this]
    · have hpx : p x = false := by
        cases h : p x with
        | false => rfl
        | true => exact absurd (huniq x (List.mem_cons_self _ _) h) hx
      have hv : v ∈ xs := by
        rcases List.mem_cons.1 hmem with e | e
        · exact absurd e.symm hx
        · exact e
      rw [List.filter_cons, hpx]
      exact ih hnd.2 hv hpv (fun w hw => huniq w (List.mem_cons_of_mem _ hw))

/-- C12 (BFS neither loses nor invents solutions). For a collection `L` of
81-cell boards and a complete grid `S` (81 cells, all in 1..9, satisfying the
row, column and box constraints): `S` agrees with the filled cells of some
board of `BFS L` if and only if it agrees with the filled cells of some board
of `L`. Consequently, from an initial 81-cell board with the valid completion
`S`, the generation after any number of rounds still holds a board that `S`
completes, and so is not empty. -/
theorem C12_BFS_keeps_solutions (L : List Board) (S : Board)
    (hL : ∀ d ∈ L, d.length = 81) (hlen : S.length = 81)
    (hrange : ∀ i, i < 81 → 1 ≤ cell S i ∧ cell S i ≤ 9) (hinv : PlacementInv S) :
    ((∃ c, c ∈ BFS L [] ∧ Extends c S) ↔ (∃ d, d ∈ L ∧ Extends d S)) ∧
    ∀ (B : Board) (k : Nat), B.length = 81 → Extends B S →
      (∃ d, d ∈ bfsPhase k [B] ∧ Extends d S) ∧ bfsPhase k [B] ≠ [] := by
  refine ⟨⟨?_, ?_⟩, fun B k hB hBS => ?_⟩
  · rintro ⟨c, hc, hcS⟩
    rw [BFS_eq_flatMap, List.nil_append, List.mem_flatMap] at hc
    obtain ⟨d, hd, hcd⟩ := hc
    exact ⟨d, hd, Extends_of_mem_expand hcd hcS⟩
  · rintro ⟨d, hd, hdS⟩
    obtain ⟨c, hc, hcS⟩ := expand_completion (hL d hd) ⟨hlen, hrange, hinv, hdS⟩
    refine ⟨c, ?_, hcS.2.2.2⟩
    rw [BFS_eq_flatMap, List.nil_append, List.mem_flatMap]
    exact ⟨d, hd, hc⟩
  · have hBc : IsCompletion B S := ⟨hlen, hrange, hinv, hBS⟩
    have hinit : ∀ d ∈ [B], d.length = 81 ∧ Extends B d ∧ PlacementInv d ∧ CellsInRange d := by
      intro d hd
      rw [List.mem_singleton.1 hd]
      exact ⟨hB, Extends_refl B, PlacementInv_of_completion hBc,
        CellsInRange_of_completion hBc⟩
    obtain ⟨-, d, hd, hdS⟩ := bfsPhase_keeps B S k [B] hinit ⟨B, List.mem_singleton.2 rfl, hBc⟩
    exact ⟨⟨d, hd, hdS.2.2.2⟩, fun he => by rw [he] at hd; simp at hd⟩

set_option maxRecDepth 100000 in
/-- C12 at the collection `[puzzleTwoBlanks]` with `S = solvedGrid`: after
three rounds the generation is not empty. -/
theorem C12_BFS_keeps_solutions_witness :
    (∀ d ∈ [puzzleTwoBlanks], d.length = 81) ∧ PlacementInv solvedGrid ∧
    Extends puzzleTwoBlanks solvedGrid ∧ bfsPhase 3 [puzzleTwoBlanks] ≠ [] :=
  have hL : ∀ d ∈ [puzzleTwoBlanks], d.length = 81 := by
    intro d hd
    rw [List.mem_singleton.1 hd]
    rfl
  have hinv : PlacementInv solvedGrid := by decide
  have hext : Extends puzzleTwoBlanks solvedGrid := by decide
  ⟨hL, hinv, hext, ((C12_BFS_keeps_solutions [puzzleTwoBlanks] solvedGrid hL rfl (by decide)
    hinv).2 puzzleTwoBlanks 3 rfl hext).2⟩

/-- C18 (empty-cell count per generation). For an 81-cell board `B` with `m`
empty cells (`m` is the number of zeros of `B`) and every `k`, each board of
the generation after `k` rounds of `BFS` from `[B]` has 81 cells, exactly
`m - k` empty cells (0 when `k` exceeds `m`) and agrees with `B` on every
filled cell of `B`; after `m` rounds every board is complete, and every
further round returns the generation unchanged. -/
theorem C18_empty_cells_per_generation (B : Board) (hlen : B.length = 81) (k : Nat) :
    (∀ d ∈ bfsPhase k [B], d.length = 81 ∧ d.count 0 = B.count 0 - k ∧
      d.count 0 = max (B.count 0 - k) 0 ∧ Extends B d) ∧
    (∀ d ∈ bfsPhase (B.count 0) [B], Complete d) ∧
    (∀ j, bfsPhase (B.count 0 + j) [B] = bfsPhase (B.count 0) [B]) ∧
    BFS (bfsPhase (B.count 0) [B]) [] = bfsPhase (B.count 0) [B] := by
  have hcount : ∀ n, ∀ d ∈ bfsPhase n [B], d.length = 81 ∧ d.count 0 = B.count 0 - n :=
    fun n => bfsPhase_count n [B] (B.count 0) (fun d hd => by
      rw [List.mem_singleton.1 hd]; exact ⟨hlen, rfl⟩)
  have hext := bfsPhase_extends B k [B] (fun d hd => by
    rw [List.mem_singleton.1 hd]; exact ⟨hlen, Extends_refl B⟩)
  have hcomp : ∀ d ∈ bfsPhase (B.count 0) [B], Complete d := by
    intro d hd
    obtain ⟨h1, h2⟩ := hcount (B.count 0) d hd
    exact (count_zero_eq_zero_iff h1).1 (by omega)
  refine ⟨fun d hd => ⟨(hcount k d hd).1, (hcount k d hd).2, ?_, (hext d hd).2⟩, hcomp,
    fun j => ?_, BFS_of_complete _ hcomp⟩
  · rw [(hcount k d hd).2]
    omega
  · rw [bfsPhase_add, bfsPhase_of_all_complete _ hcomp]

/-- C18 at `puzzleTwoBlanks` (two empty cells): after two rounds the
generation is `[solvedGrid]`, and 30 rounds give the same. -/
theorem C18_empty_cells_per_generation_witness :
    puzzleTwoBlanks.length = 81 ∧ puzzleTwoBlanks.count 0 = 2 ∧
    bfsPhase 2 [puzzleTwoBlanks] = [solvedGrid] ∧
    bfsPhase (puzzleTwoBlanks.count 0 + 28) [puzzleTwoBlanks]
      = bfsPhase (puzzleTwoBlanks.count 0) [puzzleTwoBlanks] :=
  ⟨rfl, by decide, by decide,
    (C18_empty_cells_per_generation puzzleTwoBlanks rfl 2).2.2.1 28⟩

/-- C19 (single-empty-cell boundary). For an 81-cell board whose only empty
cell is `c` and for which exactly one value `v` of 1..9 passes the constraint
check at `c`: one `BFS` round produces exactly one child, `B[c := v]`; that
child has no empty cell; and every later round passes it through unchanged,
so the generation after `k + 1` rounds is that single child. -/
theorem C19_single_empty_cell (B : Board) (c : Nat) (v : Int) (hlen : B.length = 81)
    (hc : c < 81) (h0 : cell B c = 0) (honly : ∀ j, j < 81 → j ≠ c → cell B j ≠ 0)
    (hv : 1 ≤ v ∧ v ≤ 9) (hval : isValid B c v = true)
    (huniq : ∀ w, 1 ≤ w ∧ w ≤ 9 → isValid B c w = true → w = v) (k : Nat) :
    BFS [B] [] = [B.set c v] ∧ (BFS [B] []).length = 1 ∧ Complete (B.set c v) ∧
    BFS [B.set c v] [] = [B.set c v] ∧ bfsPhase k [B.set c v] = [B.set c v] ∧
    bfsPhase (k + 1) [B] = [B.set c v] := by
  have hfe := firstEmpty_eq_some hc h0 (fun j hj => honly j (by omega) (by omega))
  have hfilter : values.filter (fun w => isValid B c w) = [v] :=
    filter_eq_singleton _ v values (by decide) ((mem_values v).2 hv) hval
      (fun w hw hpw => huniq w ((mem_values w).1 hw) hpw)
  have hone : BFS [B] [] = [B.set c v] := by
    rw [BFS_eq_flatMap]
    simp [expand, hfe, children_eq, hfilter]
  have hcomp : Complete (B.set c v) := by
    intro j hj
    by_cases e : j = c
    · subst e
      rw [cell_set_self B j v (by omega)]
      omega
    · rw [cell_set_other B c j v (Ne.symm e)]
      exact honly j hj e
  have hpass : BFS [B.set c v] [] = [B.set c v] :=
    BFS_of_complete _ (fun d hd => by rw [List.mem_singleton.1 hd]; exact hcomp)
  refine ⟨hone, by rw [hone]; rfl, hcomp, hpass, bfsPhase_of_complete hcomp k, ?_⟩
  show bfsPhase k (BFS [B] []) = [B.set c v]
  rw [hone]
  exact bfsPhase_of_complete hcomp k

/-- C19 at the solved grid with its last cell emptied: 8 is the only value
that passes at cell 80, and the single child is `solvedGrid`. -/
theorem C19_single_empty_cell_witness :
    (solvedGrid.set 80 0).length = 81 ∧ cell (solvedGrid.set 80 0) 80 = 0 ∧
    isValid (solvedGrid.set 80 0) 80 8 = true ∧
    BFS [solvedGrid.set 80 0] [] = [solvedGrid] ∧
    bfsPhase 30 [solvedGrid.set 80 0] = [solvedGrid] :=
  have h := C19_single_empty_cell (solvedGrid.set 80 0) 80 8 rfl (by decide) rfl (by decide)
    (by decide) (by decide)
    (fun w hw hpw => by
      have h1 : ∀ u ∈ values, isValid (solvedGrid.set 80 0) 80 u = true → u = 8 := by decide
      exact h1 w ((mem_values w).2 hw) hpw) 29
  ⟨rfl, rfl, by decide, h.1, h.2.2.2.2.2⟩

/-- C15 as stated fails at cell 0 with value 1: `solvedGrid` and the same
grid with cell 0 emptied differ only in cell 0, yet the check rejects on the
first (the row scan reads cell 0 itself, which holds 1) and accepts on the
second. -/
theorem C15_counterexample :
    solvedGrid.length = 81 ∧ (solvedGrid.set 0 0).length = 81 ∧
    (∀ j, j < 81 → j ≠ 0 → cell solvedGrid j = cell (solvedGrid.set 0 0) j) ∧
    isValid solvedGrid 0 1 = false ∧ isValid (solvedGrid.set 0 0) 0 1 = true :=
  ⟨rfl, rfl, by decide, by decide, by decide⟩

/-- C15 (the constraint check and the target cell), amended. For an index
`i` in 0..80, a value `v` in 1..9 and two 81-cell boards that differ at most
in cell `i`: if cell `i` holds `v` in neither board (in particular if it is
empty in both, as at every call made by `BFS` and `DFS`), the check gives the
same answer on both; and the target cell is read by the row scan, so on a
board whose cell `i` holds `v` the check answers false. -/
theorem C15_isValid_target_cell (B B' : Board) (i : Nat) (v : Int) (hlen : B.length = 81)
    (hlen' : B'.length = 81) (hi : i < 81) (hv : 1 ≤ v ∧ v ≤ 9)
    (hsame : ∀ j, j < 81 → j ≠ i → cell B j = cell B' j) :
    (cell B i ≠ v → cell B' i ≠ v → isValid B i v = isValid B' i v) ∧
    (cell B i = 0 → cell B' i = 0 → isValid B i v = isValid B' i v) ∧
    (cell B i = v → isValid B i v = false) := by
  have _h1 := hlen
  have _h2 := hlen'
  have key : cell B i ≠ v → cell B' i ≠ v → isValid B i v = isValid B' i v := by
    intro h1 h2
    rw [Bool.eq_iff_iff, isValid_iff B i v hi, isValid_iff B' i v hi]
    constructor
    · intro h j hj hu
      by_cases e : j = i
      · rw [e]; exact h2
      · rw [← hsame j hj e]; exact h j hj hu
    · intro h j hj hu
      by_cases e : j = i
      · rw [e]; exact h1
      · rw [hsame j hj e]; exact h j hj hu
  refine ⟨key, fun h1 h2 => key (by omega) (by omega), fun h => ?_⟩
  cases hval : isValid B i v with
  | false => rfl
  | true => exact absurd h ((isValid_iff B i v hi).1 hval i hi (sameUnit_self i))

/-- C15 amended, at cell 0 and value 1 on `puzzleTwoBlanks` and the board
that has 2 in cell 0 instead of the blank. -/
theorem C15_isValid_target_cell_witness :
    puzzleTwoBlanks.length = 81 ∧ (puzzleTwoBlanks.set 0 2).length = 81 ∧
    isValid puzzleTwoBlanks 0 1 = isValid (puzzleTwoBlanks.set 0 2) 0 1 :=
  ⟨rfl, rfl, (C15_isValid_target_cell puzzleTwoBlanks (puzzleTwoBlanks.set 0 2) 0 1 rfl rfl
    (by decide) (by decide) (by decide)).1 (by decide) (by decide)⟩

/-! ## The search tree: `DFS` as the DFS phase over the children -/

/-- The value loop of `DFS` at an empty cell is the DFS phase over the
children that pass the check, in the same order; a failure leaves the board
as it was. -/
theorem tryValues_dfsPhase (fuel : Nat) (b : Board) (i : Nat) (h0 : cell b i = 0)
    (hcall : ∀ v, 1 ≤ v ∧ v ≤ 9 → isValid b i v = true →
      ∃ r, DFS fuel (b.set i v) = some r ∧ (r.1 = false → r.2 = b.set i v)) :
    ∀ vs : List Int, (∀ v ∈ vs, 1 ≤ v ∧ v ≤ 9) →
      tryValues (DFS fuel) i vs b =
        (dfsPhase fuel (vs.filterMap
          (fun v => if isValid b i v then some (b.set i v) else none))).map
          (fun r => match r with
            | some b' => (true, b')
            | none => (false, b)) := by
  intro vs
  induction vs with
  | nil => intro _; rfl
  | cons v vs ih =>
    intro hvs
    have hv := hvs v (List.mem_cons_self _ _)
    have ih' := ih (fun w hw => hvs w (List.mem_cons_of_mem _ hw))
    unfold tryValues
    by_cases hval : isValid b i v = true
    · rw [if_pos hval, List.filterMap_cons_some (by rw [if_pos hval])]
      obtain ⟨r, hr, hrest⟩ := hcall v hv hval
      unfold dfsPhase
      rw [hr]
      obtain ⟨ok, b1⟩ := r
      cases ok with
      | true => rfl
      | false =>
        have hb1 : b1 = b.set i v := hrest rfl
        simp only [hb1, set_restore b i v h0]
        exact ih'
    · rw [if_neg hval, List.filterMap_cons_none (by rw [if_neg hval])]
      exact ih'

theorem dfsPhase_congr (f1 f2 : Nat) : ∀ g : List Board,
    (∀ d ∈ g, DFS f1 d = DFS f2 d) → dfsPhase f1 g = dfsPhase f2 g := by
  intro g
  induction g with
  | nil => intro _; rfl
  | cons d rest ih =>
    intro h
    unfold dfsPhase
    rw [h d (List.mem_cons_self _ _), ih (fun c hc => h c (List.mem_cons_of_mem _ hc))]

/-- At an empty first cell, `DFS` with one more unit of budget is the DFS
phase over the children. -/
theorem DFS_succ_eq (fuel : Nat) (b : Board) (i : Nat) (hlen : b.length = 81)
    (hfe : firstEmpty b = some i) (hfuel : b.count 0 ≤ fuel) :
    DFS (fuel + 1) b = (dfsPhase fuel (children b i)).map
      (fun r => match r with
        | some b' => (true, b')
        | none => (false, b)) := by
  obtain ⟨hi, h0, -⟩ := firstEmpty_some hfe
  have hcall : ∀ v, 1 ≤ v ∧ v ≤ 9 → isValid b i v = true →
      ∃ r, DFS fuel (b.set i v) = some r ∧ (r.1 = false → r.2 = b.set i v) := by
    intro v hv _
    have := count_zero_set b i v (by omega) h0 (by omega)
    obtain ⟨r, hr, -, hf, -⟩ := DFS_post fuel (b.set i v) (by simpa using hlen) (by omega)
    exact ⟨r, hr, fun h => (hf h).1⟩
  have := tryValues_dfsPhase fuel b i h0 hcall values (fun v hv => (mem_values v).1 hv)
  unfold DFS
  rw [hfe]
  exact this

/-- The result of `DFS` does not depend on the budget once the budget exceeds
the number of empty cells. -/
theorem DFS_fuel_indep : ∀ (f1 f2 : Nat) (b : Board), b.length = 81 →
    b.count 0 < f1 → b.count 0 < f2 → DFS f1 b = DFS f2 b := by
  intro f1
  induction f1 with
  | zero => intro f2 b _ h; omega
  | succ n ih =>
    intro f2 b hlen h1 h2
    obtain ⟨m, rfl⟩ : ∃ m, f2 = m + 1 := ⟨f2 - 1, by omega⟩
    cases hfe : firstEmpty b with
    | none =>
      unfold DFS
      rw [hfe]
    | some i =>
      rw [DFS_succ_eq n b i hlen hfe (by omega), DFS_succ_eq m b i hlen hfe (by omega)]
      congr 1
      apply dfsPhase_congr
      intro d hd
      obtain ⟨hi, h0, -⟩ := firstEmpty_some hfe
      obtain ⟨v, hv, -, rfl⟩ := mem_children.1 hd
      have := count_zero_set b i v (by omega) h0 (by omega)
      exact ih m (b.set i v) (by simpa using hlen) (by omega) (by omega)

theorem dfsPhase_cons (fuel : Nat) (d : Board) (rest : List Board) :
    dfsPhase fuel (d :: rest) =
      match DFS fuel d with
      | none => none
      | some (true, b) => some (some b)
      | some (false, _) => dfsPhase fuel rest := rfl

theorem dfsPhase_append (fuel : Nat) (g2 : List Board) : ∀ g1 : List Board,
    dfsPhase fuel (g1 ++ g2) =
      match dfsPhase fuel g1 with
      | some none => dfsPhase fuel g2
      | r => r := by
  intro g1
  induction g1 with
  | nil => rfl
  | cons d rest ih =>
    rw [List.cons_append, dfsPhase_cons, dfsPhase_cons]
    cases hd : DFS fuel d with
    | none => rfl
    | some r =>
      obtain ⟨ok, b1⟩ := r
      cases ok with
      | true => rfl
      | false => exact ih

/-- One board and its expansion give the same DFS phase. -/
theorem dfsPhase_expand (fuel : Nat) (hfuel : 82 ≤ fuel) (b : Board) (hlen : b.length = 81) :
    dfsPhase fuel (expand b) = dfsPhase fuel [b] := by
  cases hfe : firstEmpty b with
  | none =>
    unfold expand
    rw [hfe]
  | some i =>
    have hcnt := List.count_le_length 0 b
    obtain ⟨n, rfl⟩ : ∃ n, fuel = n + 1 := ⟨fuel - 1, by omega⟩
    have hch : dfsPhase (n + 1) (children b i) = dfsPhase n (children b i) := by
      apply dfsPhase_congr
      intro d hd
      obtain ⟨hi, h0, -⟩ := firstEmpty_some hfe
      obtain ⟨v, hv, -, rfl⟩ := mem_children.1 hd
      have := count_zero_set b i v (by omega) h0 (by omega)
      exact DFS_fuel_indep (n + 1) n (b.set i v) (by simpa using hlen) (by omega) (by omega)
    have hexp : expand b = children b i := by
      unfold expand
      rw [hfe]
    rw [hexp, hch]
    have hd := DFS_succ_eq n b i hlen hfe (by omega)
    generalize dfsPhase n (children b i) = x at hd ⊢
    unfold dfsPhase
    rw [hd]
    rcases x with _ | _ | _ <;> rfl

theorem dfsPhase_flatMap_expand (fuel : Nat) (hfuel : 82 ≤ fuel) : ∀ g : List Board,
    (∀ d ∈ g, d.length = 81) → dfsPhase fuel (g.flatMap expand) = dfsPhase fuel g := by
  intro g
  induction g with
  | nil => intro _; rfl
  | cons d rest ih =>
    intro h
    have e : d :: rest = [d] ++ rest := rfl
    rw [List.flatMap_cons, dfsPhase_append, e, dfsPhase_append,
      dfsPhase_expand fuel hfuel d (h d (List.mem_cons_self _ _)),
      ih (fun c hc => h c (List.mem_cons_of_mem _ hc))]

/-- The BFS rounds do not change what the DFS phase reports. -/
theorem dfsPhase_bfsPhase (fuel : Nat) (hfuel : 82 ≤ fuel) : ∀ (k : Nat) (g : List Board),
    (∀ d ∈ g, d.length = 81) → dfsPhase fuel (bfsPhase k g) = dfsPhase fuel g := by
  intro k
  induction k with
  | zero => intro g _; rfl
  | succ k ih =>
    intro g h
    unfold bfsPhase
    rw [ih (BFS g []) (fun c hc => by
      rw [BFS_eq_flatMap, List.nil_append, List.mem_flatMap] at hc
      obtain ⟨d, hd, hcd⟩ := hc
      exact (expand_count (h d hd) hcd).1)]
    rw [BFS_eq_flatMap, List.nil_append]
    exact dfsPhase_flatMap_expand fuel hfuel g h

/-! ## The order in which `DFS` finds completions -/

theorem tryValues_lex (call : Board → Option (Bool × Board)) (b : Board) (i : Nat)
    (hlen : b.length = 81) (hi : i < 81) (h0 : cell b i = 0)
    (hmin : ∀ j, j < i → cell b j ≠ 0)
    (hcall : ∀ v, 1 ≤ v ∧ v ≤ 9 → isValid b i v = true →
      ∃ r, call (b.set i v) = some r ∧ DFSPost (b.set i v) r ∧
        (r.1 = true → ∀ s, IsCompletion (b.set i v) s → LexLe r.2 s)) :
    ∀ vs : List Int, vs.Pairwise (fun x y => x < y) → (∀ v ∈ vs, 1 ≤ v ∧ v ≤ 9) →
      ∀ R, tryValues call i vs b = some (true, R) →
      ∀ s, IsCompletion b s → cell s i ∈ vs → LexLe R s := by
  intro vs
  induction vs with
  | nil => intro _ _ R _ s _ hmem; simp at hmem
  | cons v vs ih =>
    intro hpw hvs R hR s hs hmem
    have hv := hvs v (List.mem_cons_self _ _)
    rw [List.pairwise_cons] at hpw
    have ih' := ih hpw.2 (fun w hw => hvs w (List.mem_cons_of_mem _ hw))
    have hsval := isValid_of_completion hs hi h0
    unfold tryValues at hR
    by_cases hval : isValid b i v = true
    · rw [if_pos hval] at hR
      obtain ⟨r, hr, hpost, hlex⟩ := hcall v hv hval
      rw [hr] at hR
      obtain ⟨ok, b1⟩ := r
      cases ok with
      | true =>
        simp only [Option.some.injEq, Prod.mk.injEq, true_and] at hR
        subst hR
        rcases List.mem_cons.1 hmem with e | hmem'
        · have hc := IsCompletion_set hs hlen hi
          rw [e] at hc
          exact hlex rfl s hc
        · have hlt := hpw.1 _ hmem'
          obtain ⟨-, hext, -, -⟩ := hpost.2.2 rfl
          refine Or.inr ⟨i, hi, fun j hj => ?_, ?_⟩
          · have hbj := hmin j hj
            have hne : i ≠ j := by omega
            have h1 := hext j (by omega) (by rw [cell_set_other b i j v hne]; exact hbj)
            rw [cell_set_other b i j v hne] at h1
            have h2 := hs.2.2.2 j (by omega) hbj
            simp only at h1
            rw [h1, h2]
          · have h1 := hext i hi (by rw [cell_set_self b i v (by omega)]; omega)
            rw [cell_set_self b i v (by omega)] at h1
            simp only at h1
            rw [h1]
            exact hlt
      | false =>
        have hb1 := hpost.2.1 rfl
        simp only at hb1 hR
        rw [hb1.1, set_restore b i v h0] at hR
        rcases List.mem_cons.1 hmem with e | hmem'
        · have hc := IsCompletion_set hs hlen hi
          rw [e] at hc
          exact absurd ⟨s, hc⟩ hb1.2
        · exact ih' R hR s hs hmem'
    · rw [if_neg hval] at hR
      rcases List.mem_cons.1 hmem with e | hmem'
      · rw [e] at hsval
        exact absurd hsval hval
      · exact ih' R hR s hs hmem'

/-- A board `DFS` reports is below every valid completion of its input in
the lexicographic order. -/
theorem DFS_lex : ∀ (fuel : Nat) (b : Board), b.length = 81 → b.count 0 < fuel →
    ∀ R, DFS fuel b = some (true, R) → ∀ s, IsCompletion b s → LexLe R s := by
  intro fuel
  induction fuel with
  | zero => intro b _ h; omega
  | succ fuel ih =>
    intro b hlen hfuel R hR s hs
    unfold DFS at hR
    cases hfe : firstEmpty b with
    | none =>
      rw [hfe] at hR
      simp only [Option.some.injEq, Prod.mk.injEq, true_and] at hR
      subst hR
      exact Or.inl (fun j hj => (hs.2.2.2 j hj (firstEmpty_none hfe j hj)).symm)
    | some i =>
      rw [hfe] at hR
      obtain ⟨hi, h0, hmin⟩ := firstEmpty_some hfe
      have hcall : ∀ v, 1 ≤ v ∧ v ≤ 9 → isValid b i v = true →
          ∃ r, DFS fuel (b.set i v) = some r ∧ DFSPost (b.set i v) r ∧
            (r.1 = true → ∀ s, IsCompletion (b.set i v) s → LexLe r.2 s) := by
        intro v hv _
        have hc := count_zero_set b i v (by omega) h0 (by omega)
        have hl : (b.set i v).length = 81 := by simpa using hlen
        obtain ⟨r, hr, hp⟩ := DFS_post fuel (b.set i v) hl (by omega)
        refine ⟨r, hr, hp, fun hok s hs => ?_⟩
        obtain ⟨ok, b1⟩ := r
        simp only at hok
        subst hok
        exact ih (b.set i v) hl (by omega) b1 hr s hs
      exact tryValues_lex (DFS fuel) b i hlen hi h0 hmin hcall values (by decide)
        (fun v hv => (mem_values v).1 hv) R hR s hs ((mem_values _).2 (hs.2.1 i hi))

/-- C16 (DFS returns the lexicographically least solution). For an 81-cell
board `B` that has at least one valid completion, and a recursion budget of at
least 82: `DFS` reports success, and the board it leaves is a valid
completion of `B` that is below or equal to every valid completion of `B` in
the lexicographic order of the cell values read in index order 0..80. -/
theorem C16_DFS_lex_least (fuel : Nat) (B : Board) (hlen : B.length = 81)
    (hsolv : ∃ S, IsCompletion B S) (hfuel : 82 ≤ fuel) :
    (∃ R, DFS fuel B = some (true, R)) ∧
    ∀ R, DFS fuel B = some (true, R) →
      IsCompletion B R ∧ ∀ S, IsCompletion B S → LexLe R S := by
  have hcount : B.count 0 < fuel := by
    have := List.count_le_length 0 B
    omega
  obtain ⟨r, hr, hlen2, hf, ht⟩ := DFS_post fuel B hlen hcount
  obtain ⟨ok, b1⟩ := r
  cases ok with
  | false => exact absurd hsolv (hf rfl).2
  | true =>
    refine ⟨⟨b1, hr⟩, fun R hR => ?_⟩
    rw [hR] at hr
    simp only [Option.some.injEq, Prod.mk.injEq, true_and] at hr
    subst hr
    obtain ⟨S, hS⟩ := hsolv
    obtain ⟨hc, he, hpi, hcr⟩ := ht rfl
    refine ⟨⟨hlen2, fun i hi => ?_, hpi (PlacementInv_of_completion hS), he⟩,
      fun T hT => DFS_lex fuel B hlen hcount R hR T hT⟩
    have h3 : 0 ≤ cell R i ∧ cell R i ≤ 9 := hcr (CellsInRange_of_completion hS) i hi
    have h4 : cell R i ≠ 0 := hc i hi
    omega

set_option maxRecDepth 100000 in
/-- C16 at `puzzleTwoRows`, which has the two completions `solvedGrid` and
`swappedGrid`: `DFS` leaves `solvedGrid`, which is below `swappedGrid`. -/
theorem C16_DFS_lex_least_witness :
    puzzleTwoRows.length = 81 ∧ IsCompletion puzzleTwoRows swappedGrid ∧
    DFS 82 puzzleTwoRows = some (true, solvedGrid) ∧
    IsCompletion puzzleTwoRows solvedGrid ∧ LexLe solvedGrid swappedGrid :=
  have hT : IsCompletion puzzleTwoRows swappedGrid := by decide
  have hdfs : DFS 82 puzzleTwoRows = some (true, solvedGrid) := by decide
  have h := (C16_DFS_lex_least 82 puzzleTwoRows rfl ⟨swappedGrid, hT⟩ (by decide)).2
    solvedGrid hdfs
  ⟨rfl, hT, hdfs, h.1, h.2 swappedGrid hT⟩

/-! ## The trace of `DFS` -/

theorem tryValuesTrace_erase (call : Board → Option (Bool × Board × List Step × Nat))
    (i : Nat) : ∀ (vs : List Int) (b : Board) (steps : List Step) (depth : Nat),
    (tryValuesTrace call i vs b steps depth).map (fun r => (r.1, r.2.1)) =
      tryValues (fun c => (call c).map (fun r => (r.1, r.2.1))) i vs b := by
  intro vs
  induction vs with
  | nil => intro b steps depth; rfl
  | cons v vs ih =>
    intro b steps depth
    unfold tryValuesTrace tryValues
    by_cases hval : isValid b i v = true
    · rw [if_pos hval, if_pos hval]
      cases hc : call (b.set i v) with
      | none => rfl
      | some r =>
        obtain ⟨ok, b1, l, d⟩ := r
        cases ok with
        | true => rfl
        | false => simpa using ih _ _ _
    · rw [if_neg hval, if_neg hval]
      exact ih _ _ _

/-- The search without trace is the traced one with the trace dropped. -/
theorem DFSTrace_erase : ∀ (fuel : Nat) (b : Board),
    (DFSTrace fuel b).map (fun r => (r.1, r.2.1)) = DFS fuel b := by
  intro fuel
  induction fuel with
  | zero => intro b; rfl
  | succ fuel ih =>
    intro b
    unfold DFSTrace DFS
    cases firstEmpty b with
    | none => rfl
    | some i =>
      simp only
      rw [tryValuesTrace_erase]
      congr 1
      funext c
      exact ih c

theorem tryValuesTrace_spec (Q : Step → Prop)
    (call : Board → Option (Bool × Board × List Step × Nat)) (b : Board) (i n : Nat)
    (h0 : cell b i = 0)
    (hcall : ∀ v, 1 ≤ v ∧ v ≤ 9 → isValid b i v = true →
      ∃ r, call (b.set i v) = some r ∧ (r.1 = false → r.2.1 = b.set i v) ∧
        (∀ st ∈ r.2.2.1, Q st) ∧ r.2.2.2 + 1 ≤ n)
    (hassign : ∀ v, 1 ≤ v ∧ v ≤ 9 → isValid b i v = true → Q (Step.assign b i v))
    (hreset : ∀ v, 1 ≤ v ∧ v ≤ 9 → isValid b i v = true → Q (Step.reset (b.set i v) i)) :
    ∀ vs : List Int, (∀ v ∈ vs, 1 ≤ v ∧ v ≤ 9) → ∀ (steps : List Step) (depth : Nat),
      (∀ st ∈ steps, Q st) → depth ≤ n →
      ∃ r, tryValuesTrace call i vs b steps depth = some r ∧
        (∀ st ∈ r.2.2.1, Q st) ∧ r.2.2.2 ≤ n := by
  intro vs
  induction vs with
  | nil => intro _ steps depth hs hd; exact ⟨_, rfl, hs, hd⟩
  | cons v vs ih =>
    intro hvs steps depth hs hd
    have hv := hvs v (List.mem_cons_self _ _)
    have ih' := ih (fun w hw => hvs w (List.mem_cons_of_mem _ hw))
    unfold tryValuesTrace
    by_cases hval : isValid b i v = true
    · rw [if_pos hval]
      obtain ⟨r, hr, hrest, hq, hdep⟩ := hcall v hv hval
      rw [hr]
      obtain ⟨ok, b1, l, d⟩ := r
      simp only at hrest hq hdep
      cases ok with
      | true =>
        refine ⟨_, rfl, fun st hst => ?_, by simp only; omega⟩
        simp only [List.mem_append, List.mem_cons] at hst
        rcases hst with h | h | h
        · exact hs st h
        · rw [h]; exact hassign v hv hval
        · exact hq st h
      | false =>
        have hb1 : b1 = b.set i v := hrest rfl
        subst hb1
        simp only [set_restore b i v h0]
        apply ih' _ _ _ (by omega)
        intro st hst
        simp only [List.mem_append, List.mem_cons, List.mem_singleton, List.not_mem_nil,
          or_false] at hst
        rcases hst with (h | h | h) | h
        · exact hs st h
        · rw [h]; exact hassign v hv hval
        · exact hq st h
        · rw [h]; exact hreset v hv hval
    · rw [if_neg hval]
      exact ih' steps depth hs hd

theorem StepOK_mono {root root' : Board} (h : PlacementInv root → PlacementInv root')
    {st : Step} (hst : StepOK root' st) : StepOK root st := by
  cases st with
  | assign p i v =>
    obtain ⟨h1, h2, h3, h4, h5, h6⟩ := hst
    exact ⟨h1, h2, h3, h4, h5, fun hr => h6 (h hr)⟩
  | reset p i =>
    obtain ⟨h1, h2, h3⟩ := hst
    exact ⟨h1, h2, fun hr => h3 (h hr)⟩

/-- Totality and contract of the traced search: every step is well formed and
the nesting depth is at most the number of empty cells. -/
theorem DFSTrace_spec : ∀ (fuel : Nat) (b : Board), b.length = 81 → b.count 0 < fuel →
    ∃ r, DFSTrace fuel b = some r ∧ (r.1 = false → r.2.1 = b) ∧
      (∀ st ∈ r.2.2.1, StepOK b st) ∧ r.2.2.2 ≤ b.count 0 := by
  intro fuel
  induction fuel with
  | zero => intro b _ h; omega
  | succ fuel ih =>
    intro b hlen hfuel
    unfold DFSTrace
    cases hfe : firstEmpty b with
    | none => exact ⟨_, rfl, by simp, by simp, Nat.zero_le _⟩
    | some i =>
      obtain ⟨hi, h0, -⟩ := firstEmpty_some hfe
      have hcall : ∀ v, 1 ≤ v ∧ v ≤ 9 → isValid b i v = true →
          ∃ r, DFSTrace fuel (b.set i v) = some r ∧ (r.1 = false → r.2.1 = b.set i v) ∧
            (∀ st ∈ r.2.2.1, StepOK b st) ∧ r.2.2.2 + 1 ≤ b.count 0 := by
        intro v hv hval
        have hc := count_zero_set b i v (by omega) h0 (by omega)
        obtain ⟨r, hr, hf, hq, hd⟩ := ih (b.set i v) (by simpa using hlen) (by omega)
        exact ⟨r, hr, hf, fun st hst =>
          StepOK_mono (fun h => PlacementInv_set hlen h hi hval) (hq st hst), by omega⟩
      obtain ⟨r, hr, hq, hd⟩ := tryValuesTrace_spec (StepOK b) (DFSTrace fuel) b i (b.count 0)
        h0 hcall (fun v hv hval => ⟨hlen, hi, h0, hv, hval, fun h => h⟩)
        (fun v _ hval => ⟨by simpa using hlen, hi, fun h => PlacementInv_set hlen h hi hval⟩)
        values (fun v hv => (mem_values v).1 hv) [] 0 (by simp) (Nat.zero_le _)
      refine ⟨r, hr, fun hok => ?_, hq, hd⟩
      have he := DFSTrace_erase (fuel + 1) b
      unfold DFSTrace at he
      rw [hfe] at he
      simp only at he
      rw [hr] at he
      obtain ⟨r2, hr2, -, hf2, -⟩ := DFS_post (fuel + 1) b hlen hfuel
      rw [hr2] at he
      simp only [Option.map_some', Option.some.injEq] at he
      rw [← he] at hf2
      exact (hf2 hok).1

theorem PlacementInv_clear {p : Board} {i : Nat} (hlen : p.length = 81) (hi : i < 81)
    (h : PlacementInv p) : PlacementInv (p.set i 0) := by
  intro a ha c hc hac hu hna hnc
  by_cases e1 : a = i
  · subst e1
    exact absurd (cell_set_self p a 0 (by omega)) hna
  · by_cases e2 : c = i
    · subst e2
      exact absurd (cell_set_self p c 0 (by omega)) hnc
    · rw [cell_set_other p i a 0 (Ne.symm e1)] at hna ⊢
      rw [cell_set_other p i c 0 (Ne.symm e2)] at hnc ⊢
      exact h a ha c hc hac hu hna hnc

theorem expand_inv {d c : Board} (hd : d.length = 81 ∧ PlacementInv d) (hc : c ∈ expand d) :
    c.length = 81 ∧ PlacementInv c := by
  obtain ⟨hlen, hinv⟩ := hd
  unfold expand at hc
  cases hfe : firstEmpty d with
  | none =>
    rw [hfe] at hc
    rw [List.mem_singleton.1 hc]
    exact ⟨hlen, hinv⟩
  | some i =>
    rw [hfe] at hc
    obtain ⟨hi, -, -⟩ := firstEmpty_some hfe
    obtain ⟨v, -, hval, rfl⟩ := mem_children.1 hc
    exact ⟨by simpa using hlen, PlacementInv_set hlen hinv hi hval⟩

theorem bfsPhase_inv : ∀ (k : Nat) (g : List Board),
    (∀ d ∈ g, d.length = 81 ∧ PlacementInv d) →
    ∀ d ∈ bfsPhase k g, d.length = 81 ∧ PlacementInv d := by
  intro k
  induction k with
  | zero => intro g h; exact h
  | succ k ih =>
    intro g h
    unfold bfsPhase
    apply ih
    intro c hc
    rw [BFS_eq_flatMap, List.nil_append, List.mem_flatMap] at hc
    obtain ⟨d, hd, hcd⟩ := hc
    exact expand_inv (h d hd) hcd

/-- C14 (placement invariant preservation). If an 81-cell board `B` satisfies
the placement invariant, then every child `BFS` produces from it satisfies it,
every board of every generation grown from `[B]` satisfies it, and in a run of
`DFS` on `B` (recursion budget at least 82, which returns) the board before
and after every write, so in particular every board on which a recursive call
is made, and the board `DFS` leaves on return satisfy it. -/
theorem C14_invariant_preserved (B : Board) (hlen : B.length = 81) (hinv : PlacementInv B) :
    (∀ c ∈ BFS [B] [], PlacementInv c) ∧
    (∀ k, ∀ d ∈ bfsPhase k [B], PlacementInv d) ∧
    ∀ fuel, 82 ≤ fuel →
      ∃ ok B' steps depth, DFSTrace fuel B = some (ok, B', steps, depth) ∧
        DFS fuel B = some (ok, B') ∧ PlacementInv B' ∧
        ∀ st ∈ steps, PlacementInv st.before ∧ PlacementInv st.after := by
  have hgen : ∀ k, ∀ d ∈ bfsPhase k [B], PlacementInv d := fun k d hd =>
    (bfsPhase_inv k [B] (fun c hc => by
      rw [List.mem_singleton.1 hc]; exact ⟨hlen, hinv⟩) d hd).2
  refine ⟨hgen 1, hgen, fun fuel hfuel => ?_⟩
  have hcount : B.count 0 < fuel := by
    have := List.count_le_length 0 B
    omega
  obtain ⟨r, hr, -, hq, -⟩ := DFSTrace_spec fuel B hlen hcount
  obtain ⟨ok, B', steps, depth⟩ := r
  have hdfs : DFS fuel B = some (ok, B') := by
    rw [← DFSTrace_erase fuel B, hr]
    rfl
  obtain ⟨r2, hr2, -, hf, ht⟩ := DFS_post fuel B hlen hcount
  rw [hdfs] at hr2
  cases Option.some.inj hr2
  refine ⟨ok, B', steps, depth, hr, hdfs, ?_, fun st hst => ?_⟩
  · cases ok with
    | false =>
      have e : B' = B := (hf rfl).1
      rw [e]
      exact hinv
    | true => exact (ht rfl).2.2.1 hinv
  · have hst' := hq st hst
    cases st with
    | assign p i v =>
      obtain ⟨h1, h2, -, -, h5, h6⟩ := hst'
      exact ⟨h6 hinv, PlacementInv_set h1 (h6 hinv) h2 h5⟩
    | reset p i =>
      obtain ⟨h1, h2, h3⟩ := hst'
      exact ⟨h3 hinv, PlacementInv_clear h1 h2 (h3 hinv)⟩

set_option maxRecDepth 100000 in
/-- C14 at `deadEndBoard`: both children of the first round satisfy the
invariant. -/
theorem C14_invariant_preserved_witness :
    deadEndBoard.length = 81 ∧ PlacementInv deadEndBoard ∧
    BFS [deadEndBoard] [] = [deadEndBoard.set 0 1, deadEndBoard.set 0 2] ∧
    ∀ c ∈ BFS [deadEndBoard] [], PlacementInv c :=
  have hinv : PlacementInv deadEndBoard := by decide
  ⟨rfl, hinv, by decide, (C14_invariant_preserved deadEndBoard rfl hinv).1⟩

/-- C17 (DFS termination and depth). On an 81-cell board `B`, `DFS` returns
(solved or exhausted) for every recursion budget above the number of empty
cells of `B`; every recursive call is made on a board with exactly one empty
cell fewer than the caller's board at the call; and the nesting depth of
recursive calls is at most the number of empty cells of `B`, which is at most
81. -/
theorem C17_DFS_termination_depth (B : Board) (hlen : B.length = 81) (fuel : Nat)
    (hfuel : B.count 0 < fuel) :
    B.count 0 ≤ 81 ∧
    ∃ ok B' steps depth, DFSTrace fuel B = some (ok, B', steps, depth) ∧
      DFS fuel B = some (ok, B') ∧ depth ≤ B.count 0 ∧ depth ≤ 81 ∧
      ∀ p i v, Step.assign p i v ∈ steps → (p.set i v).count 0 + 1 = p.count 0 := by
  have hle : B.count 0 ≤ 81 := by
    have := List.count_le_length 0 B
    omega
  obtain ⟨r, hr, -, hq, hd⟩ := DFSTrace_spec fuel B hlen hfuel
  obtain ⟨ok, B', steps, depth⟩ := r
  have hdfs : DFS fuel B = some (ok, B') := by
    rw [← DFSTrace_erase fuel B, hr]
    rfl
  simp only at hd
  refine ⟨hle, ok, B', steps, depth, hr, hdfs, hd, by omega, fun p i v hst => ?_⟩
  obtain ⟨h1, h2, h3, h4, -, -⟩ := hq _ hst
  exact count_zero_set p i v (by omega) h3 (by omega)

/-- C17 at `deadEndBoard` (72 empty cells) with budget 73: the search returns
after reaching nesting depth 1. -/
theorem C17_DFS_termination_depth_witness :
    deadEndBoard.length = 81 ∧ deadEndBoard.count 0 = 72 ∧
    (DFSTrace 73 deadEndBoard).map (fun r => (r.1, r.2.2.2)) = some (false, 1) ∧
    ∃ ok B' steps depth, DFSTrace 73 deadEndBoard = some (ok, B', steps, depth) ∧
      DFS 73 deadEndBoard = some (ok, B') ∧ depth ≤ deadEndBoard.count 0 ∧ depth ≤ 81 ∧
      ∀ p i v, Step.assign p i v ∈ steps → (p.set i v).count 0 + 1 = p.count 0 :=
  ⟨rfl, by decide, by decide,
    (C17_DFS_termination_depth deadEndBoard rfl 73 (by decide)).2⟩

/-! ## Index safety -/

theorem readCell_ok {b : Board} {j : Nat} (hlen : b.length = 81) (hj : j < 81) :
    readCell b j = Except.ok (cell b j) := by
  have h : j < b.length := by omega
  simp [readCell, cell, List.getD_eq_getElem?_getD, h]

theorem writeCell_ok {b : Board} {j : Nat} (v : Int) (hlen : b.length = 81) (hj : j < 81) :
    writeCell b j v = Except.ok (b.set j v) := by
  unfold writeCell
  rw [if_pos (by omega)]

theorem scanChecked_ok {b : Board} (hlen : b.length = 81) (v : Int) : ∀ js : List Nat,
    (∀ j ∈ js, j < 81) → scanChecked b v js = Except.ok (js.any (fun j => cell b j == v)) := by
  intro js
  induction js with
  | nil => intro _; rfl
  | cons j js ih =>
    intro h
    unfold scanChecked
    rw [readCell_ok hlen (h j (List.mem_cons_self _ _))]
    simp only [List.any_cons]
    cases hx : (cell b j == v) with
    | true => simp
    | false => simpa using ih (fun k hk => h k (List.mem_cons_of_mem _ hk))

theorem rowIndices_lt {i : Nat} (hi : i < 81) : ∀ j ∈ rowIndices i, j < 81 := by
  intro j hj
  simp only [rowIndices, N, List.mem_map, List.mem_range] at hj
  obtain ⟨k, hk, rfl⟩ := hj
  omega

theorem colIndices_lt {i : Nat} : ∀ j ∈ colIndices i, j < 81 := by
  intro j hj
  simp only [colIndices, N, List.mem_map, List.mem_range] at hj
  obtain ⟨k, hk, rfl⟩ := hj
  omega

theorem boxIndices_lt {i : Nat} (hi : i < 81) : ∀ j ∈ boxIndices i, j < 81 := by
  intro j hj
  simp only [boxIndices, N, SQRT_N, List.mem_flatMap, List.mem_map, List.mem_range] at hj
  obtain ⟨a, ha, c, hc, rfl⟩ := hj
  omega

theorem isValidChecked_ok {b : Board} (hlen : b.length = 81) {i : Nat} (hi : i < 81)
    (v : Int) : isValidChecked b i v = Except.ok (isValid b i v) := by
  unfold isValidChecked
  rw [if_pos (by simpa [BOARD_SIZE] using hi), scanChecked_ok hlen v _ (rowIndices_lt hi),
    scanChecked_ok hlen v _ colIndices_lt, scanChecked_ok hlen v _ (boxIndices_lt hi)]
  unfold isValid rowIndices colIndices boxIndices
  simp only [List.any_map, List.any_flatMap, Function.comp_def]
  cases h1 : (List.range N).any (fun i_1 => cell b (i / N * N + i_1) == v) <;>
  cases h2 : (List.range N).any (fun i_1 => cell b (i_1 * N + i % N) == v) <;>
  cases h3 : (List.range SQRT_N).any (fun a => (List.range SQRT_N).any (fun c =>
      cell b ((i / N / SQRT_N * SQRT_N + a) * N + (i % N / SQRT_N * SQRT_N + c)) == v)) <;>
  simp [h1, h2, h3]

theorem firstEmptyChecked_ok {b : Board} (hlen : b.length = 81) : ∀ js : List Nat,
    (∀ j ∈ js, j < 81) →
    firstEmptyChecked b js = Except.ok (js.find? (fun i => cell b i == 0)) := by
  intro js
  induction js with
  | nil => intro _; rfl
  | cons j js ih =>
    intro h
    unfold firstEmptyChecked
    rw [readCell_ok hlen (h j (List.mem_cons_self _ _)), List.find?_cons]
    simp only
    by_cases hx : cell b j = 0
    · have hb : (cell b j == 0) = true := by simpa using hx
      rw [if_pos hb, hb]
    · have hb : (cell b j == 0) = false := by simpa using hx
      rw [if_neg (by rw [hb]; simp), hb]
      exact ih (fun k hk => h k (List.mem_cons_of_mem _ hk))

theorem firstEmptyChecked_range {b : Board} (hlen : b.length = 81) :
    firstEmptyChecked b (List.range BOARD_SIZE) = Except.ok (firstEmpty b) := by
  rw [firstEmptyChecked_ok hlen _ (fun j hj => by simpa [BOARD_SIZE] using hj)]
  rfl

theorem childrenChecked_ok {b : Board} (hlen : b.length = 81) {i : Nat} (hi : i < 81) :
    ∀ vs : List Int, childrenChecked b i vs =
      Except.ok (vs.filterMap (fun v => if isValid b i v then some (b.set i v) else none)) := by
  intro vs
  induction vs with
  | nil => rfl
  | cons v vs ih =>
    unfold childrenChecked
    rw [isValidChecked_ok hlen hi v]
    cases hval : isValid b i v with
    | true =>
      simp only
      rw [writeCell_ok v hlen hi, ih, List.filterMap_cons_some (by rw [hval]; rfl)]
    | false =>
      simp only
      rw [ih, List.filterMap_cons_none (by rw [hval]; rfl)]

theorem expandChecked_ok {b : Board} (hlen : b.length = 81) :
    expandChecked b = Except.ok (expand b) := by
  unfold expandChecked expand
  rw [firstEmptyChecked_range hlen]
  cases hfe : firstEmpty b with
  | none => rfl
  | some i =>
    simp only
    rw [childrenChecked_ok hlen (firstEmpty_some hfe).1]
    rfl

theorem BFSChecked_ok : ∀ (L next : List Board), (∀ d ∈ L, d.length = 81) →
    BFSChecked L next = Except.ok (BFS L next) := by
  intro L
  induction L with
  | nil => intro next _; rfl
  | cons b rest ih =>
    intro next h
    unfold BFSChecked
    rw [expandChecked_ok (h b (List.mem_cons_self _ _))]
    simp only
    rw [ih _ (fun c hc => h c (List.mem_cons_of_mem _ hc))]
    rfl

theorem tryValues_length (call : Board → Option (Bool × Board)) (i : Nat)
    (hcall : ∀ c r, c.length = 81 → call c = some r → r.2.length = 81) :
    ∀ (vs : List Int) (b : Board) (r : Bool × Board), b.length = 81 →
      tryValues call i vs b = some r → r.2.length = 81 := by
  intro vs
  induction vs with
  | nil =>
    intro b r hlen h
    simp only [tryValues, Option.some.injEq] at h
    rw [← h]
    exact hlen
  | cons v vs ih =>
    intro b r hlen h
    unfold tryValues at h
    by_cases hval : isValid b i v = true
    · rw [if_pos hval] at h
      cases hc : call (b.set i v) with
      | none => rw [hc] at h; cases h
      | some r1 =>
        have hl := hcall (b.set i v) r1 (by simpa using hlen) hc
        rw [hc] at h
        obtain ⟨ok, b1⟩ := r1
        cases ok with
        | true =>
          simp only [Option.some.injEq] at h
          rw [← h]
          exact hl
        | false => exact ih (b1.set i 0) r (by simpa using hl) h
    · rw [if_neg hval] at h
      exact ih b r hlen h

theorem DFS_length : ∀ (fuel : Nat) (b : Board) (r : Bool × Board), b.length = 81 →
    DFS fuel b = some r → r.2.length = 81 := by
  intro fuel
  induction fuel with
  | zero => intro b r _ h; cases h
  | succ fuel ih =>
    intro b r hlen h
    unfold DFS at h
    cases hfe : firstEmpty b with
    | none =>
      rw [hfe] at h
      simp only [Option.some.injEq] at h
      rw [← h]
      exact hlen
    | some i =>
      rw [hfe] at h
      exact tryValues_length (DFS fuel) i (fun c r hc hr => ih c r hc hr) values b r hlen h

theorem tryValuesChecked_ok (call : Board → Option (Bool × Board))
    (callC : Board → Except Fault (Bool × Board)) (i : Nat) (hi : i < 81)
    (hcall : ∀ c, c.length = 81 → callC c = liftResult (call c) ∧
      ∀ r, call c = some r → r.2.length = 81) :
    ∀ (vs : List Int) (b : Board), b.length = 81 →
      tryValuesChecked callC i vs b = liftResult (tryValues call i vs b) := by
  intro vs
  induction vs with
  | nil => intro b _; rfl
  | cons v vs ih =>
    intro b hlen
    unfold tryValuesChecked tryValues
    rw [isValidChecked_ok hlen hi v]
    cases hval : isValid b i v with
    | false => simpa using ih b hlen
    | true =>
      have hl : (b.set i v).length = 81 := by simpa using hlen
      obtain ⟨h1, h2⟩ := hcall (b.set i v) hl
      simp only [if_true]
      rw [writeCell_ok v hlen hi]
      simp only
      rw [h1]
      cases hc : call (b.set i v) with
      | none => rfl
      | some r =>
        obtain ⟨ok, b1⟩ := r
        have hl1 : b1.length = 81 := h2 _ hc
        cases ok with
        | true => rfl
        | false =>
          simp only [liftResult]
          rw [writeCell_ok 0 hl1 hi]
          exact ih (b1.set i 0) (by simpa using hl1)

/-- On an 81-cell board the checked `DFS` never stops for an access out of
range: it gives the result of `DFS`, or stops for lack of budget where `DFS`
does. -/
theorem DFSChecked_ok : ∀ (fuel : Nat) (b : Board), b.length = 81 →
    DFSChecked fuel b = liftResult (DFS fuel b) := by
  intro fuel
  induction fuel with
  | zero => intro b _; rfl
  | succ fuel ih =>
    intro b hlen
    unfold DFSChecked DFS
    rw [firstEmptyChecked_range hlen]
    cases hfe : firstEmpty b with
    | none => rfl
    | some i =>
      simp only
      exact tryValuesChecked_ok (DFS fuel) (DFSChecked fuel) i (firstEmpty_some hfe).1
        (fun c hc => ⟨ih c hc, fun r hr => DFS_length fuel c r hc hr⟩) values b hlen

/-- C20 (index safety). For a board of length 81 and an index `i` in 0..80:
every position `isValid` reads, `row * 9 + k`, `k * 9 + col` and
`(startRow + a) * 9 + (startCol + b)` for `k` in 0..8 and `a`, `b` in 0..2,
lies in 0..80; with every read and write checked against the board and every
call of `isValid` checked to pass a cell index, `isValid`, `BFS` (on any
collection of 81-cell boards) and `DFS` never stop for an access or index out
of range and compute what the unchecked functions compute. -/
theorem C20_index_safety (B : Board) (hlen : B.length = 81) (i : Nat) (hi : i < 81) :
    (∀ k, k < 9 → i / 9 * 9 + k < 81 ∧ k * 9 + i % 9 < 81) ∧
    (∀ a, a < 3 → ∀ b, b < 3 → (i / 9 / 3 * 3 + a) * 9 + (i % 9 / 3 * 3 + b) < 81) ∧
    (∀ j ∈ rowIndices i ++ colIndices i ++ boxIndices i, j < 81) ∧
    (∀ v, isValidChecked B i v = Except.ok (isValid B i v)) ∧
    (∀ L next : List Board, (∀ d ∈ L, d.length = 81) →
      BFSChecked L next = Except.ok (BFS L next)) ∧
    (∀ fuel, DFSChecked fuel B = liftResult (DFS fuel B)) ∧
    (∀ fuel, 82 ≤ fuel → ∃ r, DFSChecked fuel B = Except.ok r ∧ DFS fuel B = some r) := by
  refine ⟨fun k hk => ⟨by omega, by omega⟩, fun a ha b hb => by omega, fun j hj => ?_,
    fun v => isValidChecked_ok hlen hi v, BFSChecked_ok,
    fun fuel => DFSChecked_ok fuel B hlen, fun fuel hfuel => ?_⟩
  · simp only [List.mem_append] at hj
    rcases hj with (h | h) | h
    · exact rowIndices_lt hi j h
    · exact colIndices_lt j h
    · exact boxIndices_lt hi j h
  · have hcount : B.count 0 < fuel := by
      have := List.count_le_length 0 B
      omega
    obtain ⟨r, hr, -⟩ := DFS_post fuel B hlen hcount
    exact ⟨r, by rw [DFSChecked_ok fuel B hlen, hr]; rfl, hr⟩

/-- C20 at `deadEndBoard`, cell 0: the checked search with budget 82 ends
without a fault. On a board of 80 cells the checked scan does stop, at index
80. -/
theorem C20_index_safety_witness :
    deadEndBoard.length = 81 ∧
    DFSChecked 82 deadEndBoard = Except.ok (false, deadEndBoard) ∧
    firstEmptyChecked (solvedGrid.take 80) (List.range BOARD_SIZE)
      = Except.error (Fault.outOfRange 80) ∧
    ∀ fuel, DFSChecked fuel deadEndBoard = liftResult (DFS fuel deadEndBoard) :=
  ⟨rfl, by decide, by decide,
    (C20_index_safety deadEndBoard rfl 0 (by decide)).2.2.2.2.2.1⟩

/-! ## The BFS phase with bounded memory -/

theorem pushAll_append (mem : Nat → Nat → Bool) (cur : Nat) (ys : List Board) :
    ∀ (xs next : List Board), pushAll mem cur (xs ++ ys) next =
      match pushAll mem cur xs next with
      | none => none
      | some grown => pushAll mem cur ys grown := by
  intro xs
  induction xs with
  | nil => intro next; rfl
  | cons x xs ih =>
    intro next
    simp only [List.cons_append, pushAll]
    by_cases h : mem cur next.length = true
    · rw [if_pos h, if_pos h]
      exact ih _
    · rw [if_neg h, if_neg h]

theorem pushAll_some (mem : Nat → Nat → Bool) (cur : Nat) :
    ∀ (bs next r : List Board), pushAll mem cur bs next = some r → r = next ++ bs := by
  intro bs
  induction bs with
  | nil =>
    intro next r h
    simp only [pushAll, Option.some.injEq] at h
    rw [← h, List.append_nil]
  | cons b bs ih =>
    intro next r h
    simp only [pushAll] at h
    by_cases hm : mem cur next.length = true
    · rw [if_pos hm] at h
      rw [ih _ _ h, List.append_assoc]
      rfl
    · rw [if_neg hm] at h
      cases h

theorem pushAll_granted (mem : Nat → Nat → Bool) (cur : Nat) :
    ∀ (bs next : List Board), (∀ n, n < bs.length → mem cur (next.length + n) = true) →
      pushAll mem cur bs next = some (next ++ bs) := by
  intro bs
  induction bs with
  | nil => intro next _; simp [pushAll]
  | cons b bs ih =>
    intro next h
    simp only [pushAll]
    rw [if_pos (by simpa using h 0 (by simp))]
    rw [ih (next ++ [b]) (fun n hn => by
      have := h (n + 1) (by simpa using hn)
      rw [List.length_append, List.length_singleton]
      rw [← this]
      congr 1
      omega)]
    rw [List.append_assoc]
    rfl

theorem pushAll_none (mem : Nat → Nat → Bool) (cur : Nat) :
    ∀ (bs next : List Board), pushAll mem cur bs next = none →
      ∃ n, n < bs.length ∧ mem cur (next.length + n) = false := by
  intro bs
  induction bs with
  | nil => intro next h; cases h
  | cons b bs ih =>
    intro next h
    simp only [pushAll] at h
    by_cases hm : mem cur next.length = true
    · rw [if_pos hm] at h
      obtain ⟨n, hn, hf⟩ := ih _ h
      refine ⟨n + 1, by simpa using hn, ?_⟩
      rw [List.length_append, List.length_singleton] at hf
      rw [← hf]
      congr 1
      omega
    · exact ⟨0, by simp, by simpa using hm⟩

theorem childrenMem_eq (mem : Nat → Nat → Bool) (cur : Nat) (b : Board) (i : Nat) :
    ∀ (vs : List Int) (next : List Board), childrenMem mem cur b i vs next =
      pushAll mem cur
        (vs.filterMap (fun v => if isValid b i v then some (b.set i v) else none)) next := by
  intro vs
  induction vs with
  | nil => intro next; rfl
  | cons v vs ih =>
    intro next
    unfold childrenMem
    by_cases hval : isValid b i v = true
    · rw [if_pos hval, List.filterMap_cons_some (by rw [if_pos hval])]
      simp only [pushAll]
      by_cases hm : mem cur next.length = true
      · rw [if_pos hm, if_pos hm]
        exact ih _
      · rw [if_neg hm, if_neg hm]
    · rw [if_neg hval, List.filterMap_cons_none (by rw [if_neg hval])]
      exact ih _

theorem expandMem_eq (mem : Nat → Nat → Bool) (cur : Nat) (b : Board) (next : List Board) :
    expandMem mem cur b next = pushAll mem cur (expand b) next := by
  unfold expandMem expand
  cases firstEmpty b with
  | none => rfl
  | some i => exact childrenMem_eq mem cur b i values next

theorem BFSLoop_eq (mem : Nat → Nat → Bool) (cur : Nat) : ∀ (L next : List Board),
    BFSLoop mem cur L next = pushAll mem cur (L.flatMap expand) next := by
  intro L
  induction L with
  | nil => intro next; rfl
  | cons b rest ih =>
    intro next
    unfold BFSLoop
    rw [List.flatMap_cons, pushAll_append, expandMem_eq]
    cases pushAll mem cur (expand b) next with
    | none => rfl
    | some grown => exact ih grown

/-- A round with allocation is the round's generation pushed board by
board. -/
theorem BFSMem_eq (mem : Nat → Nat → Bool) (g : List Board) :
    BFSMem mem g [] = pushAll mem g.length (BFS g []) [] := by
  unfold BFSMem
  rw [BFSLoop_eq, BFS_eq_flatMap, List.nil_append]

theorem bfsPhaseMem_some (mem : Nat → Nat → Bool) : ∀ (k : Nat) (g r : List Board),
    bfsPhaseMem mem k g = some r → r = bfsPhase k g := by
  intro k
  induction k with
  | zero =>
    intro g r h
    simp only [bfsPhaseMem, Option.some.injEq] at h
    rw [← h]
    rfl
  | succ k ih =>
    intro g r h
    unfold bfsPhaseMem at h
    rw [BFSMem_eq] at h
    cases hp : pushAll mem g.length (BFS g []) [] with
    | none => rw [hp] at h; cases h
    | some next =>
      rw [hp] at h
      have := pushAll_some mem g.length _ _ _ hp
      rw [List.nil_append] at this
      rw [this] at h
      exact ih _ _ h

theorem bfsPhaseMem_granted (mem : Nat → Nat → Bool) : ∀ (k : Nat) (g : List Board),
    Granted mem k g → bfsPhaseMem mem k g = some (bfsPhase k g) := by
  intro k
  induction k with
  | zero => intro g _; rfl
  | succ k ih =>
    intro g h
    unfold bfsPhaseMem
    rw [BFSMem_eq, pushAll_granted mem g.length (BFS g []) [] (fun n hn => by
      rw [List.length_nil, Nat.zero_add]
      exact h 0 (Nat.succ_pos k) n hn)]
    simp only [List.nil_append]
    exact ih (BFS g []) (fun r hr n hn => h (r + 1) (by omega) n hn)

theorem bfsPhaseMem_none (mem : Nat → Nat → Bool) : ∀ (k : Nat) (g : List Board),
    bfsPhaseMem mem k g = none → ¬ Granted mem k g := by
  intro k g h hg
  rw [bfsPhaseMem_granted mem k g hg] at h
  cases h

theorem Granted_of_always (mem : Nat → Nat → Bool) (h : ∀ c n, mem c n = true) (k : Nat)
    (g : List Board) : Granted mem k g := fun _ _ _ _ => h _ _

/-- The two ways the driver can go: the BFS phase runs out of memory and the
run is terminated, or it completes with the generation `bfsPhase depth [b]`
and the DFS phase decides the report. -/
theorem driver_cases (mem : Nat → Nat → Bool) (depth fuel : Nat) (b : Board) :
    (bfsPhaseMem mem depth [b] = none ∧ ¬ Granted mem depth [b] ∧
      driver mem depth fuel b = some Outcome.badAlloc) ∨
    (bfsPhaseMem mem depth [b] = some (bfsPhase depth [b]) ∧
      driver mem depth fuel b =
        match dfsPhase fuel (bfsPhase depth [b]) with
        | none => none
        | some (some r) => some (Outcome.solved r)
        | some none => some Outcome.noSolution) := by
  unfold driver
  cases h : bfsPhaseMem mem depth [b] with
  | none => exact Or.inl ⟨rfl, bfsPhaseMem_none mem depth [b] h, rfl⟩
  | some g =>
    have := bfsPhaseMem_some mem depth [b] g h
    subst this
    exact Or.inr ⟨rfl, rfl⟩

/-- With a recursion budget of at least 82 the driver ends, in the setup
error never. -/
theorem driver_total (mem : Nat → Nat → Bool) (depth fuel : Nat) (hfuel : 82 ≤ fuel)
    (b : Board) (hlen : b.length = 81) :
    ∃ o, driver mem depth fuel b = some o ∧
      (o = Outcome.badAlloc ∨ o = Outcome.noSolution ∨ ∃ r, o = Outcome.solved r) := by
  rcases driver_cases mem depth fuel b with ⟨-, -, h⟩ | ⟨-, h⟩
  · exact ⟨_, h, Or.inl rfl⟩
  · have hgen := bfsPhase_extends b depth [b] (fun d hd => by
      rw [List.mem_singleton.1 hd]; exact ⟨hlen, Extends_refl b⟩)
    obtain ⟨r, hr, -⟩ := dfsPhase_spec fuel hfuel (bfsPhase depth [b])
      (fun d hd => (hgen d hd).1)
    rw [hr] at h
    cases r with
    | none => exact ⟨_, h, Or.inr (Or.inl rfl)⟩
    | some r => exact ⟨_, h, Or.inr (Or.inr ⟨r, rfl⟩)⟩

/-- C8 as stated fails at `dupRowBoard`: row 0 holds the digit 3 in cells 1
and 2, yet the driver (on a host with room for a million boards) reports a
solution, the board `dupRowReported`, and the check accepted the value 1 for
cell 0 of that row. -/
theorem C8_counterexample :
    dupRowBoard.length = 81 ∧ HasRowDuplicate dupRowBoard ∧
    isValid dupRowBoard 0 1 = true ∧
    driver (capMem 1000000) 30 82 dupRowBoard = some (Outcome.solved dupRowReported) ∧
    driver (capMem 1000000) 30 82 dupRowBoard ≠ some Outcome.noSolution :=
  ⟨rfl, ⟨1, by decide, 2, by decide⟩, by decide, by decide, by decide⟩

/-- C8 (end-to-end invalid input), amended. For an 81-cell board whose row
holds the same digit in two different filled cells `p` and `q`: the constraint
check rejects that digit for every cell of the row; and on any host, with a
recursion budget of at least 82, the driver (30 rounds of `BFS`, then `DFS`
on each board of the final generation) ends in one of three ways: it is
terminated by `std::bad_alloc` in the BFS phase, it reports no solution, or it
reports a board that has no empty cell and agrees with the input on every
pre-filled cell, so that it still holds the digit at both `p` and `q` and
violates the placement invariant. -/
theorem C8_invalid_input (mem : Nat → Nat → Bool) (fuel : Nat) (B : Board) (p q : Nat)
    (hlen : B.length = 81) (hp : p < 81) (hq : q < 81) (hpq : p ≠ q) (hrow : p / 9 = q / 9)
    (hfilled : cell B p ≠ 0) (hdup : cell B p = cell B q) (hfuel : 82 ≤ fuel) :
    (∀ i, i < 81 → i / 9 = p / 9 → isValid B i (cell B p) = false) ∧
    ∃ o, driver mem 30 fuel B = some o ∧
      (o = Outcome.badAlloc ∨ o = Outcome.noSolution ∨
        ∃ B', o = Outcome.solved B' ∧ B'.length = 81 ∧ Complete B' ∧ Extends B B' ∧
          cell B' p = cell B p ∧ cell B' q = cell B p ∧ ¬ PlacementInv B') := by
  refine ⟨fun i hi hip => ?_, ?_⟩
  · cases h : isValid B i (cell B p) with
    | false => rfl
    | true =>
      exact absurd rfl ((isValid_iff B i _ hi).1 h p hp (Or.inl hip.symm))
  · rcases driver_cases mem 30 fuel B with ⟨-, -, h⟩ | ⟨-, h⟩
    · exact ⟨_, h, Or.inl rfl⟩
    · have hgen := bfsPhase_extends B 30 [B] (fun d hd => by
        rw [List.mem_singleton.1 hd]; exact ⟨hlen, Extends_refl B⟩)
      obtain ⟨r, hr, hsrc⟩ := dfsPhase_spec fuel hfuel (bfsPhase 30 [B])
        (fun d hd => (hgen d hd).1)
      rw [hr] at h
      cases r with
      | none => exact ⟨_, h, Or.inr (Or.inl rfl)⟩
      | some B' =>
        refine ⟨_, h, Or.inr (Or.inr ⟨B', rfl, ?_⟩)⟩
        obtain ⟨d, hd, hdfs⟩ := hsrc B' rfl
        obtain ⟨hdlen, hdext⟩ := hgen d hd
        have hcount : d.count 0 < fuel := by
          have := List.count_le_length 0 d
          omega
        obtain ⟨r1, hr1, hlen1, -, ht⟩ := DFS_post fuel d hdlen hcount
        rw [hdfs] at hr1
        cases Option.some.inj hr1
        obtain ⟨hc, he, -, -⟩ := ht rfl
        have hext := Extends_trans hdext he
        have e1 : cell B' p = cell B p := hext p hp hfilled
        have e2 : cell B' q = cell B q := hext q hq (by rw [← hdup]; exact hfilled)
        refine ⟨hlen1, hc, hext, e1, by rw [e2, hdup], fun hinv => ?_⟩
        exact hinv p hp q hq hpq (Or.inl hrow.symm) (hc p hp) (hc q hq)
          (by rw [e1, e2, hdup])

/-- C8 amended, at `dupRowBoard` with the two 3s in cells 1 and 2: the driver
ends in one of the three ways. -/
theorem C8_invalid_input_witness :
    dupRowBoard.length = 81 ∧ cell dupRowBoard 1 ≠ 0 ∧
    cell dupRowBoard 1 = cell dupRowBoard 2 ∧
    ∃ o, driver (capMem 1000000) 30 82 dupRowBoard = some o ∧
      (o = Outcome.badAlloc ∨ o = Outcome.noSolution ∨
        ∃ B', o = Outcome.solved B' ∧ B'.length = 81 ∧ Complete B' ∧
          Extends dupRowBoard B' ∧ cell B' 1 = cell dupRowBoard 1 ∧
          cell B' 2 = cell dupRowBoard 1 ∧ ¬ PlacementInv B') :=
  ⟨rfl, by decide, by decide,
    (C8_invalid_input (capMem 1000000) 82 dupRowBoard 1 2 rfl (by decide) (by decide)
      (by decide) (by decide) (by decide) (by decide) (by decide)).2⟩

/-- C10 as stated fails at three inputs the driver accepts (host with room
for a million boards, `char` signed). `shortInput` has only 80 digits: cell 80
stays 0, the search runs and reports `solvedGrid`. `letterInput` starts with
the letter x: cell 0 becomes 72, the search runs and reports that board.
`highByteInput` starts with the byte 233: cell 0 becomes -71, the search runs
and reports that board. No run ends in the setup error. -/
theorem C10_counterexample :
    (¬ SuppliesDigits shortInput ∧
      main (capMem 1000000) true 82 (some shortInput) = some (Outcome.solved solvedGrid)) ∧
    (¬ SuppliesDigits letterInput ∧
      main (capMem 1000000) true 82 (some letterInput) = some (Outcome.solved letterBoard)) ∧
    (¬ SuppliesDigits highByteInput ∧
      main (capMem 1000000) true 82 (some highByteInput)
        = some (Outcome.solved highByteBoard)) :=
  ⟨⟨by decide, by decide⟩, ⟨by decide, by decide⟩, ⟨by decide, by decide⟩⟩

/-- C10 (input fault handling), amended. The driver ends in the setup error,
before any search step, exactly when the input file cannot be opened. When
the file opens, nothing is validated: the board read has 81 cells, cell `j`
holds the value of the `j`-th byte that is not whitespace (as a `char`, so
negative for the bytes 128..255 where `char` is signed) less 48, and holds 0
when the stream has no such byte; the driver runs the search on that board
and, with a recursion budget of at least 82, ends with a board reported as
solved, with no solution, or terminated by `std::bad_alloc`, never in the
setup error. -/
theorem C10_input_fault (mem : Nat → Nat → Bool) (signedChar : Bool) (fuel : Nat)
    (stream : List Nat) (hfuel : 82 ≤ fuel) :
    main mem signedChar fuel none = some Outcome.setupError ∧
    (readBoard signedChar stream).length = 81 ∧
    (∀ j, j < 81 → cell (readBoard signedChar stream) j =
      ((stream.filter (fun c => !isSpace c)).map
        (fun c => charValue signedChar c - 48)).getD j 0) ∧
    main mem signedChar fuel (some stream)
      = driver mem BFS_DEPTH fuel (readBoard signedChar stream) ∧
    ∃ o, main mem signedChar fuel (some stream) = some o ∧ o ≠ Outcome.setupError ∧
      (o = Outcome.badAlloc ∨ o = Outcome.noSolution ∨ ∃ b, o = Outcome.solved b) := by
  have hrl := readLoop_spec signedChar BOARD_SIZE 0 stream (List.replicate BOARD_SIZE 0)
    (by simp [BOARD_SIZE]) (by simp [BOARD_SIZE])
  have hlen : (readBoard signedChar stream).length = 81 := hrl.1
  obtain ⟨o, ho, hcase⟩ := driver_total mem BFS_DEPTH fuel hfuel _ hlen
  refine ⟨rfl, hlen, fun j hj => ?_, rfl, o, ho, ?_, hcase⟩
  · have h := hrl.2 j hj
    rw [cell_replicate_zero, if_pos ⟨Nat.zero_le j, by simpa [BOARD_SIZE] using hj⟩,
      Nat.sub_zero] at h
    exact h
  · rcases hcase with h | h | ⟨b, h⟩ <;> rw [h] <;> simp

/-- C10 amended, at `shortInput` with budget 82: the run ends, not in the
setup error; it reports `solvedGrid`. -/
theorem C10_input_fault_witness :
    main (capMem 1000000) true 82 (some shortInput) = some (Outcome.solved solvedGrid) ∧
    ∃ o, main (capMem 1000000) true 82 (some shortInput) = some o ∧
      o ≠ Outcome.setupError ∧
      (o = Outcome.badAlloc ∨ o = Outcome.noSolution ∨ ∃ b, o = Outcome.solved b) :=
  ⟨by decide,
    (C10_input_fault (capMem 1000000) true 82 shortInput (by decide)).2.2.2.2⟩

/-- C13 as stated fails: there is no host, 81-cell puzzle with a valid
completion, round count and recursion budget of at least 82 for which the
driver (the rounds of `BFS`, then `DFS` on every board of the final
generation) reports the puzzle unsolved. -/
theorem C13_counterexample :
    ¬ ∃ (mem : Nat → Nat → Bool) (B : Board) (k fuel : Nat), B.length = 81 ∧
      (∃ S, IsCompletion B S) ∧ 82 ≤ fuel ∧
      driver mem k fuel B = some Outcome.noSolution := by
  rintro ⟨mem, B, k, fuel, hlen, hS, hfuel, hnone⟩
  have hcount : B.count 0 < fuel := by
    have := List.count_le_length 0 B
    omega
  obtain ⟨r, hr, -, hf, -⟩ := DFS_post fuel B hlen hcount
  rcases driver_cases mem k fuel B with ⟨-, -, h⟩ | ⟨-, h⟩
  · rw [h] at hnone
    cases hnone
  · rw [dfsPhase_bfsPhase fuel hfuel k [B]
      (fun d hd => by rw [List.mem_singleton.1 hd]; exact hlen), dfsPhase_cons, hr] at h
    rw [h] at hnone
    obtain ⟨ok, b1⟩ := r
    cases ok with
    | true => simp at hnone
    | false => exact (hf rfl).2 hS

/-- C13 (BFS depth), amended. For an 81-cell puzzle that has a valid
completion, whatever the number `k` of BFS rounds (also beyond the number of
empty cells), on any host and with a recursion budget of at least 82: the
driver does not report the puzzle unsolved. The generation after `k` rounds
is not empty, and the run either is terminated by `std::bad_alloc` in the BFS
phase or reports a board that is a valid completion of the puzzle, the latter
whenever every `push_back` of the BFS phase gets its memory. -/
theorem C13_no_depth_defect (mem : Nat → Nat → Bool) (fuel : Nat) (B : Board) (k : Nat)
    (hlen : B.length = 81) (hsolv : ∃ S, IsCompletion B S) (hfuel : 82 ≤ fuel) :
    driver mem k fuel B ≠ some Outcome.noSolution ∧
    bfsPhase k [B] ≠ [] ∧
    (driver mem k fuel B = some Outcome.badAlloc ∨
      ∃ B', driver mem k fuel B = some (Outcome.solved B') ∧ IsCompletion B B') ∧
    (Granted mem k [B] →
      ∃ B', driver mem k fuel B = some (Outcome.solved B') ∧ IsCompletion B B') := by
  have hcount : B.count 0 < fuel := by
    have := List.count_le_length 0 B
    omega
  obtain ⟨r, hr, hlen2, hf, ht⟩ := DFS_post fuel B hlen hcount
  have hk : dfsPhase fuel (bfsPhase k [B]) = dfsPhase fuel [B] :=
    dfsPhase_bfsPhase fuel hfuel k [B] (fun d hd => by rw [List.mem_singleton.1 hd]; exact hlen)
  obtain ⟨ok, b1⟩ := r
  cases ok with
  | false => exact absurd hsolv (hf rfl).2
  | true =>
    obtain ⟨S, hS⟩ := hsolv
    obtain ⟨hc, he, hpi, hcr⟩ := ht rfl
    have hres : dfsPhase fuel (bfsPhase k [B]) = some (some b1) := by
      rw [hk, dfsPhase_cons, hr]
    have hcomp : IsCompletion B b1 := by
      refine ⟨hlen2, fun i hi => ?_, hpi (PlacementInv_of_completion hS), he⟩
      have h3 : 0 ≤ cell b1 i ∧ cell b1 i ≤ 9 := hcr (CellsInRange_of_completion hS) i hi
      have h4 : cell b1 i ≠ 0 := hc i hi
      omega
    have hne : bfsPhase k [B] ≠ [] := by
      intro hnil
      rw [hnil] at hres
      cases hres
    rcases driver_cases mem k fuel B with ⟨-, hng, h⟩ | ⟨-, h⟩
    · refine ⟨?_, hne, Or.inl h, fun hg => absurd hg hng⟩
      rw [h]
      simp
    · rw [hres] at h
      refine ⟨?_, hne, Or.inr ⟨b1, h, hcomp⟩, fun _ => ⟨b1, h, hcomp⟩⟩
      rw [h]
      simp

set_option maxRecDepth 100000 in
/-- C13 amended, at `puzzleTwoBlanks` with 40 rounds, far more than its two
empty cells, on a host that holds 100 boards: the driver does not report the
puzzle unsolved, and the generation is not empty. -/
theorem C13_no_depth_defect_witness :
    puzzleTwoBlanks.length = 81 ∧ IsCompletion puzzleTwoBlanks solvedGrid ∧
    driver (capMem 100) 40 82 puzzleTwoBlanks ≠ some Outcome.noSolution ∧
    bfsPhase 40 [puzzleTwoBlanks] ≠ [] :=
  have hS : IsCompletion puzzleTwoBlanks solvedGrid := by decide
  have h := C13_no_depth_defect (capMem 100) 82 puzzleTwoBlanks 40 rfl ⟨solvedGrid, hS⟩
    (by decide)
  ⟨rfl, hS, h.1, h.2.1⟩

end Sudoku
